import Mathlib

/-!
Verification development for the clDES supervisor-synthesis core
(`cldes/src/operations/OperationsCore.hpp`, `cldes/src/operations/SuperProxyCore.hpp`).

Shallow embedding conventions:
* `StorageIndex` (an unsigned machine integer in the source) is modelled as `Nat`;
  `StorageIndexSigned` results (the `Trans` query, which returns `-1` for "no
  transition") are modelled as `Int`.
* `EventsSet<NEvents>` (a fixed-width bitset) is modelled as a `Nat` used as a
  bitmask; `&`, `|`, `^`, `test`, `1ul << e` become `&&&`, `|||`, `^^^`,
  `Nat.testBit`, `1 <<< e`.
* the sparse hash set `StatesTableHost` is modelled as `Finset Nat`; the hash map
  `TransMap` as an association list (key, list of (successor, event)).
-/

namespace Cldes

/-- Positions of the set bits of `v`, starting at position `i`: the embedding of
the C++ idiom `while (ev.any()) { if (ev.test(0)) use(event); ++event;
ev >>= 1; }`.  Structural recursion on an explicit fuel (any `fuel ≥ v`
suffices, since `v` halves at every step), so that the definition reduces by
evaluation. -/
def bitsAscGo (fuel : Nat) (v i : Nat) : List Nat :=
  match fuel with
  | 0 => []
  | fuel + 1 =>
    if v = 0 then []
    else (if v % 2 = 1 then [i] else []) ++ bitsAscGo fuel (v / 2) (i + 1)

/-- Set-bit positions of `v` in ascending order. -/
def bitsAsc (v : Nat) : List Nat := bitsAscGo v v 0

/-!
## The abstract transition interface (`DESystemBase`)

`DESystemBase<NEvents, StorageIndex>` is the virtual query interface shared by
concrete automata and virtual products; `SuperProxy` holds two operand references
of this type and dispatches to their query functions.
-/

/-- The query interface of `DESystemBase`: state count, initial state, alphabet
(as a bitmask), marked states, and the six transition queries. -/
structure DESystemBase where
  states_number_ : Nat
  init_state_ : Nat
  events_ : Nat
  marked_states_ : List Nat
  ContainsTrans : Nat → Nat → Bool
  Trans : Nat → Nat → Int
  ContainsInvTrans : Nat → Nat → Bool
  InvTrans : Nat → Nat → List Nat
  GetStateEvents : Nat → Nat
  GetInvStateEvents : Nat → Nat

/-!
## `SuperProxy`: the lazy (virtual) parallel composition

Embedded from `cldes/src/operations/SuperProxyCore.hpp`.
-/

/-- The data members of `op::SuperProxy` that the synthesis pipeline uses. -/
structure SuperProxy where
  sys0_ : DESystemBase
  sys1_ : DESystemBase
  states_number_ : Nat
  init_state_ : Nat
  events_ : Nat
  marked_states_ : List Nat
  n_states_sys0_ : Nat
  only_in_0_ : Nat
  only_in_1_ : Nat
  virtual_states_ : List Nat
  transtriplet_ : List (Nat × List (Nat × Nat))

/-- The two-operand `SuperProxy` constructor (`SuperProxyCore.hpp`, lines 40-67):
`n_states = n0 * n1`, `init = init1 * n0 + init0`, alphabet union, private-event
masks via xor with the shared mask, and the cross product of marked states. -/
def SuperProxy.mk2 (aSys0 aSys1 : DESystemBase) : SuperProxy :=
  let n0 := aSys0.states_number_
  let in_both := aSys0.events_ &&& aSys1.events_
  { sys0_ := aSys0
    sys1_ := aSys1
    states_number_ := aSys0.states_number_ * aSys1.states_number_
    init_state_ := aSys1.init_state_ * n0 + aSys0.init_state_
    events_ := aSys0.events_ ||| aSys1.events_
    marked_states_ :=
      aSys0.marked_states_.flatMap fun q0 =>
        aSys1.marked_states_.map fun q1 => q1 * n0 + q0
    n_states_sys0_ := n0
    only_in_0_ := aSys0.events_ ^^^ in_both
    only_in_1_ := aSys1.events_ ^^^ in_both
    virtual_states_ := []
    transtriplet_ := [] }

/-- The list-operand `SuperProxy` constructor (`SuperProxyCore.hpp`, lines 69-75).
Its body is empty and it has no member-initializer list, so the constructed object
carries none of the information of its arguments; the model returns a fixed
default-valued record whatever the arguments are. -/
def SuperProxy.fromLists (_aPlants _aSpecs : List DESystemBase)
    (_aNonContr : List Nat) : SuperProxy :=
  let z : DESystemBase :=
    { states_number_ := 0, init_state_ := 0, events_ := 0, marked_states_ := []
      ContainsTrans := fun _ _ => false, Trans := fun _ _ => -1
      ContainsInvTrans := fun _ _ => false, InvTrans := fun _ _ => []
      GetStateEvents := fun _ => 0, GetInvStateEvents := fun _ => 0 }
  { sys0_ := z, sys1_ := z, states_number_ := 0, init_state_ := 0, events_ := 0
    marked_states_ := [], n_states_sys0_ := 0, only_in_0_ := 0, only_in_1_ := 0
    virtual_states_ := [], transtriplet_ := [] }

/-- `SuperProxy::ContainsTrans` (`SuperProxyCore.hpp`, lines 136-160). -/
def SuperProxy.ContainsTrans (sp : SuperProxy) (aQ aEvent : Nat) : Bool :=
  if !(sp.events_.testBit aEvent) then false
  else
    let qx := aQ % sp.n_states_sys0_
    let qy := aQ / sp.n_states_sys0_
    let in_x := sp.sys0_.ContainsTrans qx aEvent
    let in_y := sp.sys1_.ContainsTrans qy aEvent
    (in_x && in_y) || (in_x && sp.only_in_0_.testBit aEvent) ||
      (in_y && sp.only_in_1_.testBit aEvent)

/-- `SuperProxy::Trans` (`SuperProxyCore.hpp`, lines 162-194); `-1` means "no
transition". -/
def SuperProxy.Trans (sp : SuperProxy) (aQ aEvent : Nat) : Int :=
  if !(sp.events_.testBit aEvent) then -1
  else
    let qx := aQ % sp.n_states_sys0_
    let qy := aQ / sp.n_states_sys0_
    let in_x := sp.sys0_.ContainsTrans qx aEvent
    let in_y := sp.sys1_.ContainsTrans qy aEvent
    if !((in_x && in_y) || (in_x && sp.only_in_0_.testBit aEvent) ||
        (in_y && sp.only_in_1_.testBit aEvent)) then -1
    else if in_x && in_y then
      sp.sys1_.Trans qy aEvent * (sp.n_states_sys0_ : Int) + sp.sys0_.Trans qx aEvent
    else if in_x then
      (qy : Int) * (sp.n_states_sys0_ : Int) + sp.sys0_.Trans qx aEvent
    else
      sp.sys1_.Trans qy aEvent * (sp.n_states_sys0_ : Int) + (qx : Int)

/-- `SuperProxy::ContainsInvTrans` (`SuperProxyCore.hpp`, lines 196-220). -/
def SuperProxy.ContainsInvTrans (sp : SuperProxy) (aQ aEvent : Nat) : Bool :=
  if !(sp.events_.testBit aEvent) then false
  else
    let qx := aQ % sp.n_states_sys0_
    let qy := aQ / sp.n_states_sys0_
    let in_x := sp.sys0_.ContainsInvTrans qx aEvent
    let in_y := sp.sys1_.ContainsInvTrans qy aEvent
    (in_x && in_y) || (in_x && sp.only_in_0_.testBit aEvent) ||
      (in_y && sp.only_in_1_.testBit aEvent)

/-- `SuperProxy::InvTrans` (`SuperProxyCore.hpp`, lines 222-277). -/
def SuperProxy.InvTrans (sp : SuperProxy) (aQ aEvent : Nat) : List Nat :=
  if !(sp.events_.testBit aEvent) then []
  else
    let qx := aQ % sp.n_states_sys0_
    let qy := aQ / sp.n_states_sys0_
    let in_x := sp.sys0_.ContainsInvTrans qx aEvent
    let in_y := sp.sys1_.ContainsInvTrans qy aEvent
    if !((in_x && in_y) || (in_x && sp.only_in_0_.testBit aEvent) ||
        (in_y && sp.only_in_1_.testBit aEvent)) then []
    else if in_x && in_y then
      (sp.sys0_.InvTrans qx aEvent).flatMap fun q0 =>
        (sp.sys1_.InvTrans qy aEvent).map fun q1 => q1 * sp.n_states_sys0_ + q0
    else if in_x then
      (sp.sys0_.InvTrans qx aEvent).map fun q => qy * sp.n_states_sys0_ + q
    else
      (sp.sys1_.InvTrans qy aEvent).map fun q => q * sp.n_states_sys0_ + qx

/-- `SuperProxy::GetStateEvents` (`SuperProxyCore.hpp`, lines 279-291). -/
def SuperProxy.GetStateEvents (sp : SuperProxy) (aQ : Nat) : Nat :=
  let state_event_0 := sp.sys0_.GetStateEvents (aQ % sp.n_states_sys0_)
  let state_event_1 := sp.sys1_.GetStateEvents (aQ / sp.n_states_sys0_)
  (state_event_0 &&& state_event_1) ||| (state_event_0 &&& sp.only_in_0_) |||
    (state_event_1 &&& sp.only_in_1_)

/-- `SuperProxy::GetInvStateEvents` (`SuperProxyCore.hpp`, lines 293-305). -/
def SuperProxy.GetInvStateEvents (sp : SuperProxy) (aQ : Nat) : Nat :=
  let state_event_0 := sp.sys0_.GetInvStateEvents (aQ % sp.n_states_sys0_)
  let state_event_1 := sp.sys1_.GetInvStateEvents (aQ / sp.n_states_sys0_)
  (state_event_0 &&& state_event_1) ||| (state_event_0 &&& sp.only_in_0_) |||
    (state_event_1 &&& sp.only_in_1_)

/-- Modelled from the spec: a concrete automaton's query functions over an explicit
transition list `(from, to, event)` (the concrete `DESystem` query implementation,
`cldes/src/des/DESystemCore.hpp`, is not under `src/`; this follows the query
contract of spec sections 3 and 4.2: deterministic forward lookup, `-1` when
absent, list of predecessors for the inverse, per-state enabled-event masks). -/
def mkConcrete (n init : Nat) (marked : List Nat) (events : Nat)
    (trs : List (Nat × Nat × Nat)) : DESystemBase :=
  { states_number_ := n
    init_state_ := init
    events_ := events
    marked_states_ := marked
    ContainsTrans := fun q e => trs.any fun t => t.1 == q && t.2.2 == e
    Trans := fun q e =>
      match trs.find? (fun t => t.1 == q && t.2.2 == e) with
      | some t => (t.2.1 : Int)
      | none => -1
    ContainsInvTrans := fun q e => trs.any fun t => t.2.1 == q && t.2.2 == e
    InvTrans := fun q e =>
      (trs.filter fun t => t.2.1 == q && t.2.2 == e).map fun t => t.1
    GetStateEvents := fun q =>
      (trs.filter fun t => t.1 == q).foldl (fun a t => a ||| (1 <<< t.2.2)) 0
    GetInvStateEvents := fun q =>
      (trs.filter fun t => t.2.1 == q).foldl (fun a t => a ||| (1 <<< t.2.2)) 0 }

/-!
## The binary reduction tree (`GenBinExprTree`, `OperationsCore.hpp` lines 316-354)
-/

/-- Binary expression tree over systems: leaves are the input systems, inner
nodes are virtual compositions of their two children. -/
inductive BinExprTree (α : Type) where
  | leaf : α → BinExprTree α
  | node : BinExprTree α → BinExprTree α → BinExprTree α
deriving DecidableEq

/-- The leaves of a reduction tree. -/
def BinExprTree.leaves {α : Type} : BinExprTree α → List α
  | .leaf a => [a]
  | .node l r => l.leaves ++ r.leaves

/-- The inner `while (!cp_sys.empty())` loop of `GenBinExprTree`, with the
vector represented back-first (head = `cp_sys.back()`): `lhs` is popped first
and becomes the left operand of the new node. -/
def pairAdjacent {α : Type} : List (BinExprTree α) → List (BinExprTree α)
  | lhs :: rhs :: rest => BinExprTree.node lhs rhs :: pairAdjacent rest
  | _ => []

/-- One iteration of the outer `while (sys.size() != 1)` loop of
`GenBinExprTree`: when the count is odd the back element is moved to the new
vector first, then the remaining entries (an even count) are paired from the
back. -/
def treeRound {α : Type} (sys : List (BinExprTree α)) : List (BinExprTree α) :=
  if sys.length % 2 ≠ 0 then
    match sys.getLast? with
    | some last => last :: pairAdjacent sys.dropLast.reverse
    | none => []
  else pairAdjacent sys.reverse

/-- The outer loop of `GenBinExprTree`, fuelled; on the empty list the C++ loop
never terminates, which the model renders as running out of fuel (`none`). -/
def genTreeLoop {α : Type} : Nat → List (BinExprTree α) → Option (BinExprTree α)
  | _, [t] => some t
  | fuel + 1, l => genTreeLoop fuel (treeRound l)
  | 0, _ => none

/-- `GenBinExprTree` (`OperationsCore.hpp`, lines 316-354): initialise the
working vector with one leaf per input system, then run reduction rounds until
a single node remains. -/
def GenBinExprTree {α : Type} (systems : List α) : Option (BinExprTree α) :=
  genTreeLoop systems.length (systems.map BinExprTree.leaf)

/-!
## The synthesis engine (`SupervisorSynth`, `OperationsCore.hpp` lines 171-314)

The supervisor-state map `TransMap` (`c` in the source) is modelled as an
association list from a virtual state id to its recorded outgoing transitions
`(successor, event)`; the removed-states hash set `rmtable` as a `Finset Nat`;
the DFS stack as a list with its head as the top.  The two loops of the source
(the main DFS and the inverse search of `RemoveBadStates`) are modelled with an
explicit fuel parameter; running out of fuel yields `none`.
-/

/-- The supervisor map `TransMap<StorageIndex>`: an association list from state
to its recorded `(successor, event)` list. -/
abbrev CList : Type := List (Nat × List (Nat × Nat))

/-- Hash-map key membership (`aC.contains(s)`). -/
def containsKey (c : CList) (k : Nat) : Bool :=
  (c : List (Nat × List (Nat × Nat))).any fun p => p.1 == k

/-- Hash-map lookup. -/
def lookupC (c : CList) (k : Nat) : Option (List (Nat × Nat)) :=
  ((c : List (Nat × List (Nat × Nat))).find? fun p => p.1 == k).map fun p => p.2

/-- Hash-map key removal (`aC.erase(s)`). -/
def eraseKey (s : Nat) (c : CList) : CList :=
  (c : List (Nat × List (Nat × Nat))).filter fun p => p.1 != s

/-- The keys of the supervisor map, as a finite set. -/
def ckeys (c : CList) : Finset Nat :=
  ((c : List (Nat × List (Nat × Nat))).map Prod.fst).toFinset

/-- The inner loop of `RemoveBadStates` over one popped state's uncontrollable
inverse transitions (`OperationsCore.hpp`, lines 191-210): for each predecessor
`s` not yet removed, push it, insert it into the removed table, and erase it
from the supervisor map. -/
def processPairs (pairs : List Nat) (f : List Nat) (c : CList) (rm : Finset Nat) :
    List Nat × CList × Finset Nat :=
  match pairs with
  | [] => (f, c, rm)
  | s :: rest =>
    if s ∈ rm then processPairs rest f c rm
    else processPairs rest (s :: f) (eraseKey s c) (insert s rm)

/-- The `while (!f.empty())` loop of `RemoveBadStates` (`OperationsCore.hpp`,
lines 183-211), fuelled.  Popping `x`, the candidate predecessors are those
reached by an event of `GetInvStateEvents(x) & aNonContrBit`, in ascending
event order. -/
def rbsLoop (V : SuperProxy) (ncb : Nat) :
    Nat → List Nat → CList → Finset Nat → Option (CList × Finset Nat)
  | _, [], c, rm => some (c, rm)
  | 0, _ :: _, _, _ => none
  | fuel + 1, x :: st, c, rm =>
    let pairs :=
      (bitsAsc (V.GetInvStateEvents x &&& ncb)).flatMap fun e => V.InvTrans x e
    let r := processPairs pairs st c rm
    rbsLoop V ncb fuel r.1 r.2.1 r.2.2

/-- `RemoveBadStates` (`OperationsCore.hpp`, lines 171-213): seed the local
stack with `aQ`, insert `aQ` into the removed table, then run the inverse
search. -/
def RemoveBadStates (V : SuperProxy) (rbfuel : Nat) (aC : CList) (aQ : Nat)
    (aNonContrBit : Nat) (aRmTable : Finset Nat) : Option (CList × Finset Nat) :=
  rbsLoop V aNonContrBit rbfuel [aQ] aC (insert aQ aRmTable)

/-- The mutable state of the `SupervisorSynth` DFS: the supervisor map `c`, the
removed table `rmtable` and the stack `f` (head = top). -/
structure SynthState where
  c : CList
  rmtable : Finset Nat
  f : List Nat
deriving DecidableEq

/-- One step of the survivor branch's event loop (`OperationsCore.hpp`, lines
270-285): compute `fsqe = Trans(q, event)`, push it when it is neither removed
nor already a supervisor key (the key `q` itself was just inserted), and append
`(fsqe, event)` to `c[q]` in every case. -/
def survStep (V : SuperProxy) (c : CList) (rmt : Finset Nat) (q : Nat)
    (acc : List Nat × List (Nat × Nat)) (event : Nat) : List Nat × List (Nat × Nat) :=
  let fsqe := (V.Trans q event).toNat
  let f' :=
    if fsqe ∉ rmt ∧ containsKey ((q, acc.2) :: c) fsqe = false then fsqe :: acc.1
    else acc.1
  (f', acc.2 ++ [(fsqe, event)])

/-- One iteration of the main `while (!f.empty())` DFS of `SupervisorSynth`
(`OperationsCore.hpp`, lines 252-288): pop `q`; skip it when removed or already
surviving; test controllability of the uncontrollable plant events at
`qx = q % n_states_sys0_`; on failure run `RemoveBadStates`, otherwise record
`q` as surviving and process its enabled events in ascending order. -/
def synthIter (V : SuperProxy) (aP : DESystemBase) (p_non_contr_bit non_contr_bit : Nat)
    (rbfuel : Nat) (st : SynthState) : Option SynthState :=
  match st.f with
  | [] => some st
  | q :: rest =>
    if q ∈ st.rmtable ∨ containsKey st.c q = true then some ⟨st.c, st.rmtable, rest⟩
    else
      let qx := q % V.n_states_sys0_
      let q_events := V.GetStateEvents q
      let in_ncqx := p_non_contr_bit &&& aP.GetStateEvents qx
      let in_ncqx_and_q := in_ncqx &&& q_events
      if in_ncqx_and_q ≠ in_ncqx then
        match RemoveBadStates V rbfuel st.c q non_contr_bit st.rmtable with
        | none => none
        | some (c', rm') => some ⟨c', rm', rest⟩
      else
        let r := (bitsAsc q_events).foldl (survStep V st.c st.rmtable q) (rest, [])
        some ⟨(q, r.2) :: st.c, st.rmtable, r.1⟩

/-- The fuelled main DFS loop of `SupervisorSynth`. -/
def synthLoop (V : SuperProxy) (aP : DESystemBase) (p_non_contr_bit non_contr_bit : Nat)
    (rbfuel : Nat) : Nat → SynthState → Option SynthState
  | 0, st => if st.f = [] then some st else none
  | fuel + 1, st =>
    match st.f with
    | [] => some st
    | _ :: _ =>
      match synthIter V aP p_non_contr_bit non_contr_bit rbfuel st with
      | none => none
      | some st' => synthLoop V aP p_non_contr_bit non_contr_bit rbfuel fuel st'

/-- One backward step of the kill propagation: `p` is a predecessor of `x` on
some event of the uncontrollable composition mask `ncb`. -/
def killNb (V : SuperProxy) (ncb : Nat) (x p : Nat) : Prop :=
  ∃ e, (V.GetInvStateEvents x &&& ncb).testBit e = true ∧ p ∈ V.InvTrans x e

/-- Backward reachability from a seed set along `nb`, where every state added
beyond the seeds avoids `avoid`: exactly what a DFS that skips
already-removed states collects. -/
inductive ReachFrom (nb : Nat → Nat → Prop) (seeds : Nat → Prop)
    (avoid : Finset Nat) : Nat → Prop
  | seed {x} : seeds x → ReachFrom nb seeds avoid x
  | step {x p} : ReachFrom nb seeds avoid x → nb x p → p ∉ avoid →
      ReachFrom nb seeds avoid p

/-- The set of states the kill of `q` propagates to: the inverse-reachability
closure of `q` along uncontrollable events, not crossing states already in
`avoid`. -/
def KillReaches (V : SuperProxy) (ncb : Nat) (avoid : Finset Nat) (q p : Nat) : Prop :=
  ReachFrom (killNb V ncb) (fun z => z = q) avoid p

/-- Well-formedness of a virtual system for the synthesis loop: state-event
masks fit in `NE` bits, enabled transitions are defined and land below `N`, and
inverse transitions stay below `N`. -/
abbrev SynthWF (V : SuperProxy) (N NE : Nat) : Prop :=
  (∀ q, q < N → V.GetStateEvents q < 2 ^ NE) ∧
  (∀ q, q < N → ∀ e, e < NE → (V.GetStateEvents q).testBit e = true →
    0 ≤ V.Trans q e ∧ (V.Trans q e).toNat < N) ∧
  (∀ x, x < N → ∀ e, e < NE → ∀ p ∈ V.InvTrans x e, p < N) ∧
  (∀ x, x < N → V.GetInvStateEvents x < 2 ^ NE)

/-- All states mentioned by a synthesis state are below `N`. -/
def StInv (N : Nat) (st : SynthState) : Prop :=
  (∀ x ∈ st.f, x < N) ∧ (∀ x ∈ st.rmtable, x < N) ∧ (∀ p ∈ st.c, p.1 < N)

/-- The scenario S3 plant: one state with a self-loop on the uncontrollable
event `b0` (event id 2, alphabet mask `1 << 2 = 4`), marked. -/
def s3plant : DESystemBase := mkConcrete 1 0 [0] 4 [(0, 0, 2)]

/-- The scenario S3 specification: one state, empty alphabet, marked. -/
def s3spec : DESystemBase := mkConcrete 1 0 [0] 0 []

/-!
## Materialisation (`SuperProxy::operator DESystem` + `SynchronizeStage2`)
-/

/-- Ascending insertion sort: the
`std::sort(virtual_states_.begin(), virtual_states_.end())` call of
`SuperProxy::operator DESystem`. -/
def insertSorted (x : Nat) : List Nat → List Nat
  | [] => [x]
  | y :: ys => if x ≤ y then x :: y :: ys else y :: insertSorted x ys

/-- Sort a list of state ids ascending. -/
def sortAsc (l : List Nat) : List Nat := l.foldr insertSorted []

/-- Position of `x` in `l`: the `statesmap` of `SynchronizeStage2`, which maps
the `cst`-th entry of the iterated `virtual_states_` to `cst`. -/
def idx (l : List Nat) (x : Nat) : Option Nat :=
  match l with
  | [] => none
  | y :: ys => if y = x then some 0 else (idx ys x).map fun i => i + 1

/-- The transition-remap loop of `SynchronizeStage2` (`OperationsCore.hpp`,
lines 144-166): entries of `transtriplet_` are consumed from the back, each
inner list from the back; a triplet `(statesmap[q], statesmap[qto], 1 << e)` is
emitted only when `statesmap.contains(qto)`.  `statesmap[q]` is modelled as
`(idx vs q).getD 0`; in the synthesis flow every entry key is itself in `vs`
(the keys of `transtriplet_` are exactly `virtual_states_`), which matches the
default-inserting `operator[]` of the source's hash map. -/
def stage2Triplets (vs : List Nat) (tt : List (Nat × List (Nat × Nat))) :
    List (Nat × Nat × Nat) :=
  tt.reverse.flatMap fun qtr =>
    qtr.2.reverse.filterMap fun pe =>
      match idx vs pe.1 with
      | some qto_m => some ((idx vs qtr.1).getD 0, qto_m, 1 <<< pe.2)
      | none => none

/-- The marked-state remap loop of `SynchronizeStage2` (`OperationsCore.hpp`,
lines 128-136): for each pair of operand marked states whose virtual id
survives, the renumbered id is inserted into the already populated
`marked_states_` set (which still holds the virtual marked ids from the
constructor). -/
def stage2Marked (sp : SuperProxy) (vs : List Nat) : List Nat :=
  sp.marked_states_ ++
    (sp.sys0_.marked_states_.flatMap fun s0 =>
      sp.sys1_.marked_states_.filterMap fun s1 =>
        idx vs (s1 * sp.n_states_sys0_ + s0))

/-- The concrete automaton produced by materialisation; the graph is kept as
the list of `(from, to, events-mask)` triplets handed to `setFromTriplets`. -/
structure DESystemC where
  states_number_ : Nat
  init_state_ : Nat
  marked_states_ : List Nat
  events_ : Nat
  triplets : List (Nat × Nat × Nat)
deriving DecidableEq

/-- `SuperProxy::operator DESystem` (`SuperProxyCore.hpp`, lines 77-111)
composed with `SynchronizeStage2` (`OperationsCore.hpp`, lines 101-169): sort
`virtual_states_`, renumber marked states and transitions through `statesmap`,
set `states_number_` to `|virtual_states_|` — and move `init_state_` over
unchanged (the source copies `this->init_state_`, the virtual id, without
looking it up in `statesmap`). -/
def SuperProxy.toDESystem (sp : SuperProxy) : DESystemC :=
  let sorted := sortAsc sp.virtual_states_
  { states_number_ := sorted.length
    init_state_ := sp.init_state_
    marked_states_ := stage2Marked sp sorted
    events_ := sp.events_
    triplets := stage2Triplets sorted sp.transtriplet_ }

/-- The non-controllable bit masks of `SupervisorSynth` (`OperationsCore.hpp`,
lines 225-237): `p_non_contr_bit` collects the uncontrollable events in the
plant's alphabet, `non_contr_bit` those of them also in the composition's. -/
def nonContrBits (aNonContr : List Nat) (pEvents vEvents : Nat) : Nat × Nat :=
  aNonContr.foldl
    (fun pq event =>
      if pEvents.testBit event then
        (pq.1 ||| (1 <<< event),
         if vEvents.testBit event then pq.2 ||| (1 <<< event) else pq.2)
      else pq)
    (0, 0)

/-- One expansion step of a bounded reachability iteration. -/
def reachStep (next : Nat → List Nat) (s : List Nat) : List Nat :=
  (s ++ s.flatMap next).dedup

/-- Bounded reachability iteration. -/
def reachList (next : Nat → List Nat) : Nat → List Nat → List Nat
  | 0, s => s
  | k + 1, s => reachList next k (reachStep next s)

/-- Modelled from the spec: `DESystem::Trim` (its implementation file
`cldes/src/des/DESystemCore.hpp` is not under `src/`; spec section 4.6:
compute reachable states from `init` and co-reachable states to `marked`, keep
their intersection, return the automaton unchanged when nothing is cut,
renumber otherwise, and produce the empty automaton when `init` is cut). -/
def DESystemC.Trim (A : DESystemC) : DESystemC :=
  let succs := fun q => A.triplets.filterMap fun t =>
    if t.1 = q ∧ t.2.2 ≠ 0 then some t.2.1 else none
  let preds := fun q => A.triplets.filterMap fun t =>
    if t.2.1 = q ∧ t.2.2 ≠ 0 then some t.1 else none
  let acc := reachList succs A.states_number_ [A.init_state_]
  let coacc := reachList preds A.states_number_ A.marked_states_
  let trimset := (List.range A.states_number_).filter fun q =>
    acc.contains q && coacc.contains q
  if trimset.length = A.states_number_ then A
  else if A.init_state_ ∈ trimset then
    { states_number_ := trimset.length
      init_state_ := (idx trimset A.init_state_).getD 0
      marked_states_ := A.marked_states_.filterMap fun m => idx trimset m
      events_ := A.events_
      triplets := A.triplets.filterMap fun t =>
        match idx trimset t.1, idx trimset t.2.1 with
        | some a, some b => some (a, b, t.2.2)
        | _, _ => none }
  else
    { states_number_ := 0, init_state_ := 0, marked_states_ := [],
      events_ := A.events_, triplets := [] }

/-- `SupervisorSynth` (`OperationsCore.hpp`, lines 215-314) over the
`SuperProxy` composition, fuelled: build the proxy, compute the
non-controllable masks, run the DFS from the virtual initial state, move the
supervisor map into `virtual_states_` / `transtriplet_`, materialise and
trim. -/
def SupervisorSynthF (fuel : Nat) (aP aE : DESystemBase)
    (aNonContr : List Nat) : Option DESystemC :=
  let virtualsys := SuperProxy.mk2 aP aE
  let bits := nonContrBits aNonContr aP.events_ virtualsys.events_
  match synthLoop virtualsys aP bits.1 bits.2
      (2 * virtualsys.states_number_ + 2) fuel ⟨[], ∅, [virtualsys.init_state_]⟩ with
  | none => none
  | some st =>
    let vsys2 := { virtualsys with
      virtual_states_ := st.c.map Prod.fst
      transtriplet_ := st.c }
    some vsys2.toDESystem.Trim

/-- A materialisation fixture for claim C2: the product of two 2-state operands
with `X.init = 0` and `Y.init = 1` (virtual initial id `1 * 2 + 0 = 2`), of
which only the virtual state 2 survived. -/
def c2fixture : SuperProxy :=
  { SuperProxy.mk2 (mkConcrete 2 0 [] 1 [(0, 1, 0)]) (mkConcrete 2 1 [] 1 [(0, 1, 0)]) with
    virtual_states_ := [2]
    transtriplet_ := [(2, [])] }

/-- The statement of claim C4's first half: in the survivor branch, `(q', e)`
is appended to `c[q]` for every enabled event, whether or not `q'` is already
removed. -/
def RecordAllSpec (V : SuperProxy) (aP : DESystemBase)
    (pncb ncb rbfuel : Nat) (st : SynthState) (q : Nat) : Prop :=
  ∃ st', synthIter V aP pncb ncb rbfuel st = some st' ∧
    ∀ e, (V.GetStateEvents q).testBit e = true →
      ((V.Trans q e).toNat, e) ∈ (lookupC st'.c q).getD []

/-- The statement of claim C4's second half: `SynchronizeStage2` emits a
renumbered triplet for a recorded pair `(q', e)` of an entry `q` exactly when
the target `q'` is itself a surviving state, and every emitted triplet arises
that way. -/
def Stage2FilterSpec : Prop :=
  ∀ (vs : List Nat) (tt : List (Nat × List (Nat × Nat))),
    (∀ qq lst q' e r', (qq, lst) ∈ tt → (q', e) ∈ lst → idx vs q' = some r' →
      ((idx vs qq).getD 0, r', 1 <<< e) ∈ stage2Triplets vs tt) ∧
    (∀ T ∈ stage2Triplets vs tt, ∃ qq lst q' e r', (qq, lst) ∈ tt ∧
      (q', e) ∈ lst ∧ idx vs q' = some r' ∧
      T = ((idx vs qq).getD 0, r', 1 <<< e))

/-- The statement of claim C1 for the bad-state branch: when
`enabled_u ≠ required_u` the popped state `q` is killed, the removed table
grows by exactly the uncontrollable inverse-reachability closure of `q`, and
every state of that closure is erased from the survivors. -/
def DfsBadStepSpec (V : SuperProxy) (aP : DESystemBase)
    (p_non_contr_bit non_contr_bit rbfuel : Nat) (st : SynthState) (q : Nat)
    (rest : List Nat) : Prop :=
  (p_non_contr_bit &&& aP.GetStateEvents (q % V.n_states_sys0_)) &&& V.GetStateEvents q
      ≠ p_non_contr_bit &&& aP.GetStateEvents (q % V.n_states_sys0_) →
  ∃ st', synthIter V aP p_non_contr_bit non_contr_bit rbfuel st = some st' ∧
    st'.f = rest ∧ q ∈ st'.rmtable ∧
    (∀ p, p ∈ st'.rmtable ↔
      p ∈ st.rmtable ∨ KillReaches V non_contr_bit st.rmtable q p) ∧
    (∀ k, containsKey st'.c k = true ↔
      containsKey st.c k = true ∧ ¬ KillReaches V non_contr_bit st.rmtable q k)

/-- The statement of claim C1 for the surviving branch: when
`enabled_u = required_u` the popped state `q` is inserted into the survivors
with the list of its outgoing transitions in ascending event order, nothing is
killed, and no other survivor entry changes. -/
def DfsGoodStepSpec (V : SuperProxy) (aP : DESystemBase)
    (p_non_contr_bit non_contr_bit rbfuel : Nat) (st : SynthState) (q : Nat)
    (rest : List Nat) : Prop :=
  (p_non_contr_bit &&& aP.GetStateEvents (q % V.n_states_sys0_)) &&& V.GetStateEvents q
      = p_non_contr_bit &&& aP.GetStateEvents (q % V.n_states_sys0_) →
  ∃ st', synthIter V aP p_non_contr_bit non_contr_bit rbfuel st = some st' ∧
    st'.rmtable = st.rmtable ∧ q ∉ st'.rmtable ∧
    lookupC st'.c q = some ((bitsAsc (V.GetStateEvents q)).map
      fun e => ((V.Trans q e).toNat, e)) ∧
    (∀ k, k ≠ q → lookupC st'.c k = lookupC st.c k)

/-- The statement of claim C3 at operands `s0`, `s1`, state `q` and event `e`:
the composition rule for `ContainsTrans`, the mask formula for the product's
per-state enabled events, and the fact that a shared event enabled on only one
side does not fire. -/
def CompositionRuleSpec (s0 s1 : DESystemBase) (q e : Nat) : Prop :=
  ((SuperProxy.mk2 s0 s1).ContainsTrans q e = true ↔
    (s0.events_.testBit e = true ∧ s1.events_.testBit e = true ∧
      s0.ContainsTrans (q % s0.states_number_) e = true ∧
      s1.ContainsTrans (q / s0.states_number_) e = true) ∨
    (s0.events_.testBit e = true ∧ s1.events_.testBit e = false ∧
      s0.ContainsTrans (q % s0.states_number_) e = true) ∨
    (s1.events_.testBit e = true ∧ s0.events_.testBit e = false ∧
      s1.ContainsTrans (q / s0.states_number_) e = true)) ∧
  (∀ i, ((SuperProxy.mk2 s0 s1).GetStateEvents q).testBit i = true ↔
    ((s0.GetStateEvents (q % s0.states_number_)).testBit i = true ∧
      (s1.GetStateEvents (q / s0.states_number_)).testBit i = true) ∨
    ((s0.GetStateEvents (q % s0.states_number_)).testBit i = true ∧
      s0.events_.testBit i = true ∧ s1.events_.testBit i = false) ∨
    ((s1.GetStateEvents (q / s0.states_number_)).testBit i = true ∧
      s1.events_.testBit i = true ∧ s0.events_.testBit i = false)) ∧
  (s0.events_.testBit e = true → s1.events_.testBit e = true →
    (s0.ContainsTrans (q % s0.states_number_) e = false ∨
      s1.ContainsTrans (q / s0.states_number_) e = false) →
    (SuperProxy.mk2 s0 s1).ContainsTrans q e = false)

lemma bitsAscGo_mem :
    ∀ fuel v, v ≤ fuel → ∀ i e,
      e ∈ bitsAscGo fuel v i ↔ i ≤ e ∧ v.testBit (e - i) = true := by
  intro fuel
  induction fuel with
  | zero =>
    intro v hv i e
    have hz : v = 0 := by omega
    subst hz
    simp [bitsAscGo]
  | succ n ih =>
    intro v hv i e
    by_cases h : v = 0
    · subst h
      simp [bitsAscGo]
    · rw [bitsAscGo, if_neg h]
      have hle : v / 2 ≤ n := by
        have hd : v / 2 < v := Nat.div_lt_self (Nat.pos_of_ne_zero h) (by omega)
        omega
      rw [List.mem_append, ih (v / 2) hle (i + 1) e]
      constructor
      · rintro (h1 | ⟨h2a, h2b⟩)
        · have he : e = i := by
            by_cases hp : v % 2 = 1 <;> simp [hp] at h1
            exact h1
          subst he
          refine ⟨le_refl _, ?_⟩
          have hp : v % 2 = 1 := by
            by_cases hp : v % 2 = 1
            · exact hp
            · simp [hp] at h1
          simp [Nat.sub_self, Nat.testBit_zero, hp]
        · refine ⟨by omega, ?_⟩
          have : e - i = (e - (i + 1)) + 1 := by omega
          rw [this, Nat.testBit_add_one]
          exact h2b
      · rintro ⟨hle2, hbit⟩
        rcases Nat.lt_or_ge i e with hlt2 | hge
        · right
          refine ⟨by omega, ?_⟩
          have : e - i = (e - (i + 1)) + 1 := by omega
          rw [this, Nat.testBit_add_one] at hbit
          exact hbit
        · have he : e = i := by omega
          subst he
          left
          simp only [Nat.sub_self, Nat.testBit_zero, decide_eq_true_eq] at hbit
          simp [hbit]

lemma bitsAsc_mem (v e : Nat) : e ∈ bitsAsc v ↔ v.testBit e = true := by
  rw [bitsAsc, bitsAscGo_mem v v (le_refl v)]
  simp

lemma bitsAscGo_zero (fuel i : Nat) : bitsAscGo fuel 0 i = [] := by
  cases fuel <;> simp [bitsAscGo]

lemma bitsAscGo_length_le {k : Nat} :
    ∀ fuel v i, v < 2 ^ k → v ≤ fuel → (bitsAscGo fuel v i).length ≤ k := by
  induction k with
  | zero =>
    intro fuel v i hv _
    have hz : v = 0 := by omega
    subst hz
    simp [bitsAscGo_zero]
  | succ k ih =>
    intro fuel v i hv hle
    cases fuel with
    | zero => simp [bitsAscGo]
    | succ n =>
      by_cases h : v = 0
      · subst h
        simp [bitsAscGo_zero]
      · rw [bitsAscGo, if_neg h]
        have h2 : v / 2 < 2 ^ k := by
          have := Nat.pow_succ 2 k
          omega
        have h3 : v / 2 ≤ n := by
          have hd : v / 2 < v := Nat.div_lt_self (Nat.pos_of_ne_zero h) (by omega)
          omega
        have := ih n (v / 2) (i + 1) h2 h3
        by_cases hp : v % 2 = 1 <;> simp [hp] <;> omega

lemma bitsAsc_length_le {k v : Nat} (hv : v < 2 ^ k) : (bitsAsc v).length ≤ k :=
  bitsAscGo_length_le v v 0 hv (le_refl v)

lemma bitsAsc_mem_lt {k v e : Nat} (hv : v < 2 ^ k) (he : e ∈ bitsAsc v) : e < k := by
  rw [bitsAsc_mem] at he
  by_contra hge
  have : v < 2 ^ e := lt_of_lt_of_le hv (Nat.pow_le_pow_right (by omega) (by omega))
  rw [Nat.testBit_lt_two_pow this] at he
  cases he

/-- Bitmask-subset fact: if `a &&& b = a` then every bit of `a` is a bit of `b`. -/
lemma testBit_of_land_self {a b : Nat} (h : a &&& b = a) {i : Nat}
    (hi : a.testBit i = true) : b.testBit i = true := by
  have := congrArg (fun x => Nat.testBit x i) h
  simp only [Nat.testBit_and] at this
  rw [hi] at this
  simpa using this.symm

/-- `x ^ (x & y)` is "the bits of `x` that are not in `y`" (the `only_in_0_`
computation of the `SuperProxy` constructor). -/
lemma testBit_xor_land (x y i : Nat) :
    (x ^^^ (x &&& y)).testBit i = (x.testBit i && !(y.testBit i)) := by
  simp only [Nat.testBit_xor, Nat.testBit_and]
  cases hx : x.testBit i <;> cases hy : y.testBit i <;> rfl

/-- `y ^ (x & y)` is "the bits of `y` that are not in `x`" (the `only_in_1_`
computation of the `SuperProxy` constructor). -/
lemma testBit_xor_land' (x y i : Nat) :
    (y ^^^ (x &&& y)).testBit i = (y.testBit i && !(x.testBit i)) := by
  simp only [Nat.testBit_xor, Nat.testBit_and]
  cases hx : x.testBit i <;> cases hy : y.testBit i <;> rfl

/-!
## Claims about the virtual-product queries
-/

/-- Claim C6: for every state `q` of a virtual product and every event `e` not in
the product's alphabet, all six query functions return the constant negative
result: `ContainsTrans` and `ContainsInvTrans` are `false`, `Trans` is `-1`
(NONE), `InvTrans` is `[]`, and the two per-state event masks do not report `e`.
The operand hypotheses say the operand state-event masks are contained in the
operand alphabets (spec invariant I1). -/
theorem C6_out_of_alphabet_queries (s0 s1 : DESystemBase) (q e : Nat)
    (he : (SuperProxy.mk2 s0 s1).events_.testBit e = false)
    (h0 : s0.GetStateEvents (q % s0.states_number_) &&& s0.events_
          = s0.GetStateEvents (q % s0.states_number_))
    (h1 : s1.GetStateEvents (q / s0.states_number_) &&& s1.events_
          = s1.GetStateEvents (q / s0.states_number_))
    (h0i : s0.GetInvStateEvents (q % s0.states_number_) &&& s0.events_
          = s0.GetInvStateEvents (q % s0.states_number_))
    (h1i : s1.GetInvStateEvents (q / s0.states_number_) &&& s1.events_
          = s1.GetInvStateEvents (q / s0.states_number_)) :
    (SuperProxy.mk2 s0 s1).ContainsTrans q e = false ∧
    (SuperProxy.mk2 s0 s1).Trans q e = -1 ∧
    (SuperProxy.mk2 s0 s1).ContainsInvTrans q e = false ∧
    (SuperProxy.mk2 s0 s1).InvTrans q e = [] ∧
    ((SuperProxy.mk2 s0 s1).GetStateEvents q).testBit e = false ∧
    ((SuperProxy.mk2 s0 s1).GetInvStateEvents q).testBit e = false := by
  have he0 : s0.events_.testBit e = false := by
    have h' := he
    simp only [SuperProxy.mk2, Nat.testBit_or, Bool.or_eq_false_iff] at h'
    exact h'.1
  have he1 : s1.events_.testBit e = false := by
    have h' := he
    simp only [SuperProxy.mk2, Nat.testBit_or, Bool.or_eq_false_iff] at h'
    exact h'.2
  have hsub : ∀ a b : Nat, a &&& b = a → b.testBit e = false → a.testBit e = false := by
    intro a b hab hb
    cases hx : a.testBit e
    · rfl
    · have := testBit_of_land_self hab hx
      rw [hb] at this
      cases this
  refine ⟨?_, ?_, ?_, ?_, ?_, ?_⟩
  · simp [SuperProxy.ContainsTrans, he]
  · simp [SuperProxy.Trans, he]
  · simp [SuperProxy.ContainsInvTrans, he]
  · simp [SuperProxy.InvTrans, he]
  · have g0 := hsub _ _ h0 he0
    have g1 := hsub _ _ h1 he1
    simp [SuperProxy.GetStateEvents, SuperProxy.mk2, Nat.testBit_or, Nat.testBit_and, g0, g1]
  · have g0 := hsub _ _ h0i he0
    have g1 := hsub _ _ h1i he1
    simp [SuperProxy.GetInvStateEvents, SuperProxy.mk2, Nat.testBit_or, Nat.testBit_and, g0, g1]

/-- Witness for C6 at a concrete product and out-of-alphabet event. -/
theorem C6_out_of_alphabet_queries_witness :
    ((SuperProxy.mk2 (mkConcrete 2 0 [0] 3 [(0, 1, 0)])
        (mkConcrete 2 0 [0] 3 [(0, 1, 1)])).events_.testBit 3 = false) ∧
    ((SuperProxy.mk2 (mkConcrete 2 0 [0] 3 [(0, 1, 0)])
        (mkConcrete 2 0 [0] 3 [(0, 1, 1)])).ContainsTrans 1 3 = false ∧
     (SuperProxy.mk2 (mkConcrete 2 0 [0] 3 [(0, 1, 0)])
        (mkConcrete 2 0 [0] 3 [(0, 1, 1)])).Trans 1 3 = -1 ∧
     (SuperProxy.mk2 (mkConcrete 2 0 [0] 3 [(0, 1, 0)])
        (mkConcrete 2 0 [0] 3 [(0, 1, 1)])).ContainsInvTrans 1 3 = false ∧
     (SuperProxy.mk2 (mkConcrete 2 0 [0] 3 [(0, 1, 0)])
        (mkConcrete 2 0 [0] 3 [(0, 1, 1)])).InvTrans 1 3 = [] ∧
     ((SuperProxy.mk2 (mkConcrete 2 0 [0] 3 [(0, 1, 0)])
        (mkConcrete 2 0 [0] 3 [(0, 1, 1)])).GetStateEvents 1).testBit 3 = false ∧
     ((SuperProxy.mk2 (mkConcrete 2 0 [0] 3 [(0, 1, 0)])
        (mkConcrete 2 0 [0] 3 [(0, 1, 1)])).GetInvStateEvents 1).testBit 3 = false) :=
  ⟨by decide,
   C6_out_of_alphabet_queries (mkConcrete 2 0 [0] 3 [(0, 1, 0)])
     (mkConcrete 2 0 [0] 3 [(0, 1, 1)]) 1 3 (by decide) (by decide) (by decide)
     (by decide) (by decide)⟩

/-- Claim C3: for every virtual-product state `q = (qx, qy)` and every event
`e`, the product has a transition on `e` iff one of the three parallel
composition cases holds, the product's enabled-event mask follows the
`(seX ∩ seY) ∪ (seX ∩ only_X) ∪ (seY ∩ only_Y)` formula, and a shared event
enabled on only one side does not fire; see `CompositionRuleSpec`.  The operand
hypotheses say a transition's event lies in the operand's alphabet (spec
invariant: every event appearing on a transition is in `alphabet`). -/
theorem C3_composition_rule (s0 s1 : DESystemBase) (q e : Nat)
    (hx : s0.ContainsTrans (q % s0.states_number_) e = true → s0.events_.testBit e = true)
    (hy : s1.ContainsTrans (q / s0.states_number_) e = true → s1.events_.testBit e = true) :
    CompositionRuleSpec s0 s1 q e := by
  refine ⟨?_, ?_, ?_⟩
  · simp only [SuperProxy.ContainsTrans, SuperProxy.mk2, Nat.testBit_or, testBit_xor_land,
      testBit_xor_land']
    cases hb0 : s0.events_.testBit e <;> cases hb1 : s1.events_.testBit e <;>
      cases hinx : s0.ContainsTrans (q % s0.states_number_) e <;>
        cases hiny : s1.ContainsTrans (q / s0.states_number_) e <;>
          simp_all
  · intro i
    simp only [SuperProxy.GetStateEvents, SuperProxy.mk2, Nat.testBit_or, Nat.testBit_and,
      testBit_xor_land, testBit_xor_land']
    cases (s0.GetStateEvents (q % s0.states_number_)).testBit i <;>
      cases (s1.GetStateEvents (q / s0.states_number_)).testBit i <;>
        cases s0.events_.testBit i <;> cases s1.events_.testBit i <;> simp
  · intro hb0 hb1 hone
    simp only [SuperProxy.ContainsTrans, SuperProxy.mk2, Nat.testBit_or, testBit_xor_land,
      testBit_xor_land', hb0, hb1]
    rcases hone with hno | hno <;> rw [hno] <;>
      cases s0.ContainsTrans (q % s0.states_number_) e <;>
        cases s1.ContainsTrans (q / s0.states_number_) e <;> simp_all

/-- Witness for C3 at a concrete product: two two-state operands with a shared
alphabet bit. -/
theorem C3_composition_rule_witness :
    ((mkConcrete 2 0 [0] 3 [(0, 1, 0)]).ContainsTrans (1 % 2) 0 = true →
      (mkConcrete 2 0 [0] 3 [(0, 1, 0)]).events_.testBit 0 = true) ∧
    CompositionRuleSpec (mkConcrete 2 0 [0] 3 [(0, 1, 0)])
      (mkConcrete 2 0 [0] 1 [(0, 0, 0)]) 1 0 :=
  ⟨by decide,
   C3_composition_rule (mkConcrete 2 0 [0] 3 [(0, 1, 0)])
     (mkConcrete 2 0 [0] 1 [(0, 0, 0)]) 1 0 (by decide) (by decide)⟩

/-- Claim C7: inverse round trip.  For every virtual-product state `q` and event
`e` whose transition is defined (`Trans q e ≠ -1`), the list `InvTrans` at the
successor contains `q`.  The operand hypotheses state the corresponding
round-trip and range facts for the operands (spec scenario S6 at the operand
level, plus the alphabet invariant for the inverse queries). -/
theorem C7_inv_round_trip (s0 s1 : DESystemBase) (q e : Nat)
    (hpos : 0 < s0.states_number_)
    (hX : s0.ContainsTrans (q % s0.states_number_) e = true →
      0 ≤ s0.Trans (q % s0.states_number_) e ∧
      (s0.Trans (q % s0.states_number_) e).toNat < s0.states_number_ ∧
      s0.ContainsInvTrans (s0.Trans (q % s0.states_number_) e).toNat e = true ∧
      q % s0.states_number_ ∈ s0.InvTrans (s0.Trans (q % s0.states_number_) e).toNat e)
    (hY : s1.ContainsTrans (q / s0.states_number_) e = true →
      0 ≤ s1.Trans (q / s0.states_number_) e ∧
      s1.ContainsInvTrans (s1.Trans (q / s0.states_number_) e).toNat e = true ∧
      q / s0.states_number_ ∈ s1.InvTrans (s1.Trans (q / s0.states_number_) e).toNat e)
    (hAX : s0.ContainsInvTrans (q % s0.states_number_) e = true →
      s0.events_.testBit e = true)
    (hAY : s1.ContainsInvTrans (q / s0.states_number_) e = true →
      s1.events_.testBit e = true)
    (hne : (SuperProxy.mk2 s0 s1).Trans q e ≠ -1) :
    q ∈ (SuperProxy.mk2 s0 s1).InvTrans ((SuperProxy.mk2 s0 s1).Trans q e).toNat e := by
  have hq : (q / s0.states_number_) * s0.states_number_ + q % s0.states_number_ = q := by
    rw [Nat.mul_comm]
    exact Nat.div_add_mod q s0.states_number_
  cases hev : (s0.events_ ||| s1.events_).testBit e
  · exact absurd (by simp [SuperProxy.Trans, SuperProxy.mk2, hev]) hne
  cases hinx : s0.ContainsTrans (q % s0.states_number_) e <;>
    cases hiny : s1.ContainsTrans (q / s0.states_number_) e
  · -- neither operand enables `e`: no transition, contradiction
    exact absurd (by simp [SuperProxy.Trans, SuperProxy.mk2, hev, hinx, hiny]) hne
  · -- only `Y` moves
    cases ho1 : (s1.events_ ^^^ (s0.events_ &&& s1.events_)).testBit e
    · exact absurd (by simp [SuperProxy.Trans, SuperProxy.mk2, hev, hinx, hiny, ho1]) hne
    have he0 : s0.events_.testBit e = false := by
      have h' := testBit_xor_land' s0.events_ s1.events_ e
      rw [ho1] at h'
      cases hx0 : s0.events_.testBit e
      · rfl
      · rw [hx0] at h'
        simp at h'
    obtain ⟨ht1n, hci1, hm1⟩ := hY hiny
    have hsb : s1.Trans (q / s0.states_number_) e
        = ((s1.Trans (q / s0.states_number_) e).toNat : Int) :=
      (Int.toNat_of_nonneg ht1n).symm
    have htr : (SuperProxy.mk2 s0 s1).Trans q e
        = (((s1.Trans (q / s0.states_number_) e).toNat * s0.states_number_
            + q % s0.states_number_ : Nat) : Int) := by
      simp only [SuperProxy.Trans, SuperProxy.mk2, hev, hinx, hiny, ho1]
      rw [hsb]
      push_cast
      simp
    rw [htr, Int.toNat_natCast]
    have hmod : ((s1.Trans (q / s0.states_number_) e).toNat * s0.states_number_
        + q % s0.states_number_) % s0.states_number_ = q % s0.states_number_ := by
      rw [Nat.mul_comm, Nat.mul_add_mod]
      exact Nat.mod_mod_of_dvd q (dvd_refl _)
    have hdiv : ((s1.Trans (q / s0.states_number_) e).toNat * s0.states_number_
        + q % s0.states_number_) / s0.states_number_
        = (s1.Trans (q / s0.states_number_) e).toNat := by
      rw [Nat.mul_comm, Nat.mul_add_div hpos]
      simp [Nat.div_eq_of_lt (Nat.mod_lt q hpos)]
    have hix' : s0.ContainsInvTrans (q % s0.states_number_) e = false := by
      cases hc : s0.ContainsInvTrans (q % s0.states_number_) e
      · rfl
      · rw [hAX hc] at he0
        cases he0
    have hinv : (SuperProxy.mk2 s0 s1).InvTrans
        ((s1.Trans (q / s0.states_number_) e).toNat * s0.states_number_
          + q % s0.states_number_) e
        = (s1.InvTrans (s1.Trans (q / s0.states_number_) e).toNat e).map
            (fun p => p * s0.states_number_ + q % s0.states_number_) := by
      simp [SuperProxy.InvTrans, SuperProxy.mk2, hmod, hdiv, hev, hci1, hix', ho1]
    rw [hinv]
    exact List.mem_map.mpr ⟨q / s0.states_number_, hm1, hq⟩
  · -- only `X` moves
    cases ho0 : (s0.events_ ^^^ (s0.events_ &&& s1.events_)).testBit e
    · exact absurd (by simp [SuperProxy.Trans, SuperProxy.mk2, hev, hinx, hiny, ho0]) hne
    have he1 : s1.events_.testBit e = false := by
      have h' := testBit_xor_land s0.events_ s1.events_ e
      rw [ho0] at h'
      cases hx1 : s1.events_.testBit e
      · rfl
      · rw [hx1] at h'
        simp at h'
    obtain ⟨ht0n, ht0lt, hci0, hm0⟩ := hX hinx
    have hsa : s0.Trans (q % s0.states_number_) e
        = ((s0.Trans (q % s0.states_number_) e).toNat : Int) :=
      (Int.toNat_of_nonneg ht0n).symm
    have htr : (SuperProxy.mk2 s0 s1).Trans q e
        = (((q / s0.states_number_) * s0.states_number_
            + (s0.Trans (q % s0.states_number_) e).toNat : Nat) : Int) := by
      simp only [SuperProxy.Trans, SuperProxy.mk2, hev, hinx, hiny, ho0]
      rw [hsa]
      push_cast
      simp
    rw [htr, Int.toNat_natCast]
    have hmod : ((q / s0.states_number_) * s0.states_number_
        + (s0.Trans (q % s0.states_number_) e).toNat) % s0.states_number_
        = (s0.Trans (q % s0.states_number_) e).toNat := by
      rw [Nat.mul_comm, Nat.mul_add_mod]
      exact Nat.mod_eq_of_lt ht0lt
    have hdiv : ((q / s0.states_number_) * s0.states_number_
        + (s0.Trans (q % s0.states_number_) e).toNat) / s0.states_number_
        = q / s0.states_number_ := by
      rw [Nat.mul_comm, Nat.mul_add_div hpos]
      simp [Nat.div_eq_of_lt ht0lt]
    have hiy' : s1.ContainsInvTrans (q / s0.states_number_) e = false := by
      cases hc : s1.ContainsInvTrans (q / s0.states_number_) e
      · rfl
      · rw [hAY hc] at he1
        cases he1
    have hinv : (SuperProxy.mk2 s0 s1).InvTrans
        ((q / s0.states_number_) * s0.states_number_
          + (s0.Trans (q % s0.states_number_) e).toNat) e
        = (s0.InvTrans (s0.Trans (q % s0.states_number_) e).toNat e).map
            (fun p => (q / s0.states_number_) * s0.states_number_ + p) := by
      simp [SuperProxy.InvTrans, SuperProxy.mk2, hmod, hdiv, hev, hci0, hiy', ho0]
    rw [hinv]
    exact List.mem_map.mpr ⟨q % s0.states_number_, hm0, hq⟩
  · -- synchronised step
    obtain ⟨ht0n, ht0lt, hci0, hm0⟩ := hX hinx
    obtain ⟨ht1n, hci1, hm1⟩ := hY hiny
    have hsa : s0.Trans (q % s0.states_number_) e
        = ((s0.Trans (q % s0.states_number_) e).toNat : Int) :=
      (Int.toNat_of_nonneg ht0n).symm
    have hsb : s1.Trans (q / s0.states_number_) e
        = ((s1.Trans (q / s0.states_number_) e).toNat : Int) :=
      (Int.toNat_of_nonneg ht1n).symm
    have htr : (SuperProxy.mk2 s0 s1).Trans q e
        = (((s1.Trans (q / s0.states_number_) e).toNat * s0.states_number_
            + (s0.Trans (q % s0.states_number_) e).toNat : Nat) : Int) := by
      simp only [SuperProxy.Trans, SuperProxy.mk2, hev, hinx, hiny]
      rw [hsa, hsb]
      push_cast
      simp
    rw [htr, Int.toNat_natCast]
    have hmod : ((s1.Trans (q / s0.states_number_) e).toNat * s0.states_number_
        + (s0.Trans (q % s0.states_number_) e).toNat) % s0.states_number_
        = (s0.Trans (q % s0.states_number_) e).toNat := by
      rw [Nat.mul_comm, Nat.mul_add_mod]
      exact Nat.mod_eq_of_lt ht0lt
    have hdiv : ((s1.Trans (q / s0.states_number_) e).toNat * s0.states_number_
        + (s0.Trans (q % s0.states_number_) e).toNat) / s0.states_number_
        = (s1.Trans (q / s0.states_number_) e).toNat := by
      rw [Nat.mul_comm, Nat.mul_add_div hpos]
      simp [Nat.div_eq_of_lt ht0lt]
    have hinv : (SuperProxy.mk2 s0 s1).InvTrans
        ((s1.Trans (q / s0.states_number_) e).toNat * s0.states_number_
          + (s0.Trans (q % s0.states_number_) e).toNat) e
        = (s0.InvTrans (s0.Trans (q % s0.states_number_) e).toNat e).flatMap
            (fun q0 => (s1.InvTrans (s1.Trans (q / s0.states_number_) e).toNat e).map
              (fun q1 => q1 * s0.states_number_ + q0)) := by
      simp [SuperProxy.InvTrans, SuperProxy.mk2, hmod, hdiv, hev, hci0, hci1]
    rw [hinv]
    refine List.mem_flatMap.mpr ⟨q % s0.states_number_, hm0, ?_⟩
    exact List.mem_map.mpr ⟨q / s0.states_number_, hm1, hq⟩

/-- Witness for C7 at a concrete synchronised product: both operands step from
state 0 to state 1 on the shared event 0. -/
theorem C7_inv_round_trip_witness :
    (0 < (mkConcrete 2 0 [0] 1 [(0, 1, 0)]).states_number_) ∧
    0 ∈ (SuperProxy.mk2 (mkConcrete 2 0 [0] 1 [(0, 1, 0)])
        (mkConcrete 2 0 [0] 1 [(0, 1, 0)])).InvTrans
      ((SuperProxy.mk2 (mkConcrete 2 0 [0] 1 [(0, 1, 0)])
        (mkConcrete 2 0 [0] 1 [(0, 1, 0)])).Trans 0 0).toNat 0 :=
  ⟨by decide,
   C7_inv_round_trip (mkConcrete 2 0 [0] 1 [(0, 1, 0)])
     (mkConcrete 2 0 [0] 1 [(0, 1, 0)]) 0 0 (by decide) (by decide) (by decide)
     (by decide) (by decide) (by decide)⟩

/-- Claim C10: the list-based `SuperProxy` constructor performs no computation:
its body is empty, so the constructed object is the same whatever its arguments
are, and in particular does not represent the composition of the given systems
(contrast with the two-operand constructor `SuperProxy.mk2`, which initialises
the state count from the product of the operand state counts). -/
theorem C10_list_constructor_inert :
    (∀ p s nc p' s' nc',
      SuperProxy.fromLists p s nc = SuperProxy.fromLists p' s' nc') ∧
    (SuperProxy.fromLists [mkConcrete 2 0 [0] 3 [(0, 1, 0)]]
        [mkConcrete 2 0 [0] 3 [(0, 1, 1)]] [1]).states_number_ = 0 ∧
    (SuperProxy.mk2 (mkConcrete 2 0 [0] 3 [(0, 1, 0)])
        (mkConcrete 2 0 [0] 3 [(0, 1, 1)])).states_number_ = 4 ∧
    (0 : Nat) ≠ 4 :=
  ⟨fun _ _ _ _ _ _ => rfl, rfl, rfl, by decide⟩

/-!
## Claims about the reduction tree
-/

lemma pairAdjacent_length {α : Type} :
    ∀ l : List (BinExprTree α), (pairAdjacent l).length = l.length / 2
  | [] => by simp [pairAdjacent]
  | [_] => by simp [pairAdjacent]
  | _ :: _ :: rest => by
    simp only [pairAdjacent, List.length_cons, pairAdjacent_length rest]
    omega

lemma treeRound_length {α : Type} (l : List (BinExprTree α)) (h2 : 2 ≤ l.length) :
    (treeRound l).length < l.length ∧ 0 < (treeRound l).length := by
  unfold treeRound
  by_cases hp : l.length % 2 ≠ 0
  · rw [if_pos hp]
    cases hg : l.getLast? with
    | none =>
      rw [List.getLast?_eq_none_iff] at hg
      subst hg
      simp at h2
    | some t =>
      simp only [List.length_cons, pairAdjacent_length, List.length_reverse,
        List.length_dropLast]
      omega
  · rw [if_neg hp]
    simp only [pairAdjacent_length, List.length_reverse]
    omega

lemma pairAdjacent_leaves {α : Type} :
    ∀ l : List (BinExprTree α), l.length % 2 = 0 →
      (pairAdjacent l).flatMap BinExprTree.leaves = l.flatMap BinExprTree.leaves
  | [], _ => rfl
  | [_], h => by simp at h
  | a :: b :: rest, h => by
    have hr : rest.length % 2 = 0 := by
      simp only [List.length_cons] at h
      omega
    simp [pairAdjacent, BinExprTree.leaves, pairAdjacent_leaves rest hr]

lemma treeRound_leaves {α : Type} (l : List (BinExprTree α)) (h2 : 2 ≤ l.length) :
    ((treeRound l).flatMap BinExprTree.leaves).Perm (l.flatMap BinExprTree.leaves) := by
  unfold treeRound
  by_cases hp : l.length % 2 ≠ 0
  · rw [if_pos hp]
    cases hg : l.getLast? with
    | none =>
      rw [List.getLast?_eq_none_iff] at hg
      subst hg
      simp at h2
    | some t =>
      have hne : l ≠ [] := by
        intro h
        subst h
        simp at h2
      have hlast : l.dropLast ++ [t] = l := by
        have h1 := List.getLast?_eq_getLast l hne
        rw [h1, Option.some_inj] at hg
        rw [← hg]
        exact List.dropLast_append_getLast hne
      have hdl : l.dropLast.reverse.length % 2 = 0 := by
        simp only [List.length_reverse, List.length_dropLast]
        omega
      have e1 : (t :: pairAdjacent l.dropLast.reverse).flatMap BinExprTree.leaves
          = t.leaves ++ l.dropLast.reverse.flatMap BinExprTree.leaves := by
        simp [pairAdjacent_leaves _ hdl]
      rw [e1]
      conv_rhs => rw [← hlast]
      have e2 : (l.dropLast ++ [t]).flatMap BinExprTree.leaves
          = l.dropLast.flatMap BinExprTree.leaves ++ t.leaves := by simp
      rw [e2]
      exact List.Perm.trans
        (List.Perm.append_left _ ((List.reverse_perm _).flatMap_right _))
        List.perm_append_comm
  · rw [if_neg hp]
    rw [pairAdjacent_leaves _ (by simpa using hp)]
    exact (List.reverse_perm _).flatMap_right _

lemma leaves_map_leaf {α : Type} :
    ∀ l : List α, (l.map BinExprTree.leaf).flatMap BinExprTree.leaves = l
  | [] => rfl
  | a :: l' => by simp [BinExprTree.leaves, leaves_map_leaf l']

lemma genTreeLoop_some {α : Type} :
    ∀ fuel (l : List (BinExprTree α)), l ≠ [] → l.length ≤ fuel →
      ∃ t, genTreeLoop fuel l = some t ∧
        t.leaves.Perm (l.flatMap BinExprTree.leaves) := by
  intro fuel
  induction fuel with
  | zero =>
    intro l hne hlen
    cases l with
    | nil => exact absurd rfl hne
    | cons a l' => simp at hlen
  | succ n ih =>
    intro l hne hlen
    match l with
    | [t] => exact ⟨t, rfl, by simp⟩
    | a :: b :: rest =>
      have h2 : 2 ≤ (a :: b :: rest).length := by simp
      obtain ⟨hlt, hpos⟩ := treeRound_length (a :: b :: rest) h2
      have hne' : treeRound (a :: b :: rest) ≠ [] := by
        intro h
        rw [h] at hpos
        simp at hpos
      obtain ⟨t, ht, hperm⟩ := ih (treeRound (a :: b :: rest)) hne' (by omega)
      refine ⟨t, ?_, hperm.trans (treeRound_leaves _ h2)⟩
      simpa [genTreeLoop] using ht

/-- Claim C8: for every non-empty list of systems the reduction-tree
construction terminates with exactly one node, that node is built from exactly
the input systems (its leaves are a permutation of the input list), and the
construction is deterministic: the same input list always produces the same
tree. -/
theorem C8_reduction_tree (α : Type) (l : List α) (hne : l ≠ []) :
    (∃ t, GenBinExprTree l = some t ∧ t.leaves.Perm l) ∧
    (∀ l', l' = l → GenBinExprTree l' = GenBinExprTree l) := by
  constructor
  · obtain ⟨t, ht, hperm⟩ := genTreeLoop_some l.length (l.map BinExprTree.leaf)
      (by simpa using hne) (by simp)
    refine ⟨t, ht, ?_⟩
    rwa [leaves_map_leaf l] at hperm
  · intro l' h
    rw [h]

/-- Witness for C8 at the concrete input list `[1, 2, 3]`. -/
theorem C8_reduction_tree_witness :
    (([1, 2, 3] : List Nat) ≠ []) ∧
    ((∃ t, GenBinExprTree [1, 2, 3] = some t ∧ t.leaves.Perm [1, 2, 3]) ∧
      (∀ l', l' = [1, 2, 3] → GenBinExprTree l' = GenBinExprTree [1, 2, 3])) :=
  ⟨by decide, C8_reduction_tree Nat [1, 2, 3] (by decide)⟩

/-!
## Claims about the synthesis engine
-/

lemma containsKey_cons (a : Nat) (b : List (Nat × Nat)) (c : CList) (k : Nat) :
    containsKey ((a, b) :: c) k = (a == k || containsKey c k) := by
  simp [containsKey]

lemma containsKey_eraseKey {s k : Nat} {c : CList} :
    containsKey (eraseKey s c) k = true ↔ containsKey c k = true ∧ k ≠ s := by
  simp only [containsKey, eraseKey, List.any_eq_true, List.mem_filter, bne_iff_ne,
    beq_iff_eq]
  constructor
  · rintro ⟨p, ⟨hp, hps⟩, hpk⟩
    refine ⟨⟨p, hp, hpk⟩, ?_⟩
    rw [← hpk]
    exact hps
  · rintro ⟨⟨p, hp, hpk⟩, hks⟩
    refine ⟨p, ⟨hp, ?_⟩, hpk⟩
    rw [hpk]
    exact hks

lemma mem_nbList (V : SuperProxy) (ncb x p : Nat) :
    (p ∈ (bitsAsc (V.GetInvStateEvents x &&& ncb)).flatMap fun e => V.InvTrans x e)
      ↔ killNb V ncb x p := by
  simp only [List.mem_flatMap, bitsAsc_mem, killNb]

lemma processPairs_spec :
    ∀ (pairs f : List Nat) (c : CList) (rm : Finset Nat),
      (∀ z, z ∈ (processPairs pairs f c rm).2.2 ↔ z ∈ rm ∨ (z ∈ pairs ∧ z ∉ rm)) ∧
      (∀ z, z ∈ (processPairs pairs f c rm).1 ↔ z ∈ f ∨ (z ∈ pairs ∧ z ∉ rm)) ∧
      (∀ k, containsKey (processPairs pairs f c rm).2.1 k = true ↔
        containsKey c k = true ∧ ¬(k ∈ pairs ∧ k ∉ rm))
  | [], f, c, rm => by simp [processPairs]
  | s :: rest, f, c, rm => by
    by_cases hs : s ∈ rm
    · have ih := processPairs_spec rest f c rm
      rw [processPairs, if_pos hs]
      refine ⟨fun z => ?_, fun z => ?_, fun k => ?_⟩
      · rw [ih.1 z, List.mem_cons]
        by_cases hz : z = s
        · subst hz
          simp [hs]
        · simp [hz]
      · rw [ih.2.1 z, List.mem_cons]
        by_cases hz : z = s
        · subst hz
          simp [hs]
        · simp [hz]
      · rw [ih.2.2 k, List.mem_cons]
        by_cases hk : k = s
        · subst hk
          simp [hs]
        · simp [hk]
    · have ih := processPairs_spec rest (s :: f) (eraseKey s c) (insert s rm)
      rw [processPairs, if_neg hs]
      refine ⟨fun z => ?_, fun z => ?_, fun k => ?_⟩
      · rw [ih.1 z, List.mem_cons, Finset.mem_insert]
        by_cases hz : z = s
        · subst hz
          simp [hs]
        · simp [hz]
      · rw [ih.2.1 z, List.mem_cons, List.mem_cons, Finset.mem_insert]
        by_cases hz : z = s
        · subst hz
          simp [hs]
        · simp [hz]
      · rw [ih.2.2 k, containsKey_eraseKey, List.mem_cons, Finset.mem_insert]
        by_cases hk : k = s
        · subst hk
          simp [hs]
        · simp [hk]

lemma ReachFrom_not_seed {nb : Nat → Nat → Prop} {avoid : Finset Nat}
    {seeds : Nat → Prop} (hseeds : ∀ z, ¬ seeds z) :
    ∀ z, ¬ ReachFrom nb seeds avoid z := by
  intro z h
  induction h with
  | seed hz => exact hseeds _ hz
  | step _ _ _ ih => exact ih

/-- The DFS round equation: expanding the popped state `x` (whose fresh
neighbours `P` are pushed and inserted) turns reachability from `x :: st`
avoiding `rm` into reachability from `P ++ st` avoiding `rm ∪ P`. -/
lemma reach_round (nb : Nat → Nat → Prop) (x : Nat) (st f₁ : List Nat)
    (rm rm₁ : Finset Nat)
    (hx : x ∈ rm) (hst : ∀ y ∈ st, y ∈ rm)
    (hrm₁ : ∀ z, z ∈ rm₁ ↔ z ∈ rm ∨ (nb x z ∧ z ∉ rm))
    (hf₁ : ∀ z, z ∈ f₁ ↔ z ∈ st ∨ (nb x z ∧ z ∉ rm)) :
    ∀ z, (z ∈ rm₁ ∨ ReachFrom nb (fun w => w ∈ f₁) rm₁ z) ↔
      (z ∈ rm ∨ ReachFrom nb (fun w => w ∈ x :: st) rm z) := by
  have fwd : ∀ z, ReachFrom nb (fun w => w ∈ f₁) rm₁ z →
      ReachFrom nb (fun w => w ∈ x :: st) rm z := by
    intro z h
    induction h with
    | seed hz =>
      rw [hf₁] at hz
      rcases hz with hz | ⟨hnb, hnrm⟩
      · exact .seed (by simp [hz])
      · exact .step (.seed (by simp)) hnb hnrm
    | step hy hnb hna ih =>
      refine .step ih hnb fun hm => hna ?_
      rw [hrm₁]
      exact Or.inl hm
  have bwd : ∀ z, ReachFrom nb (fun w => w ∈ x :: st) rm z →
      z = x ∨ ReachFrom nb (fun w => w ∈ f₁) rm₁ z := by
    intro z h
    induction h with
    | seed hz =>
      rcases List.mem_cons.mp hz with hz | hz
      · exact Or.inl hz
      · exact Or.inr (.seed (by rw [hf₁]; exact Or.inl hz))
    | @step y p hy hnb hna ih =>
      right
      rcases ih with rfl | hy'
      · exact .seed (by rw [hf₁]; exact Or.inr ⟨hnb, hna⟩)
      · by_cases hp1 : p ∈ rm₁
        · rcases (hrm₁ p).mp hp1 with hrm | ⟨hnbx, _⟩
          · exact absurd hrm hna
          · exact .seed (by rw [hf₁]; exact Or.inr ⟨hnbx, hna⟩)
        · exact .step hy' hnb hp1
  intro z
  constructor
  · rintro (hz | hz)
    · rcases (hrm₁ z).mp hz with hz | ⟨hnb, hnrm⟩
      · exact Or.inl hz
      · exact Or.inr (.step (.seed (by simp)) hnb hnrm)
    · exact Or.inr (fwd z hz)
  · rintro (hz | hz)
    · exact Or.inl ((hrm₁ z).mpr (Or.inl hz))
    · rcases bwd z hz with rfl | hz'
      · exact Or.inl ((hrm₁ z).mpr (Or.inl hx))
      · exact Or.inr hz'

/-- What `RemoveBadStates`'s loop computes, given that every stacked state is
already in the removed table: the final removed table is the old one plus the
backward closure of the stack along uncontrollable events, and exactly the
newly removed states are erased from the supervisor map. -/
lemma rbsLoop_spec (V : SuperProxy) (ncb : Nat) :
    ∀ (fuel : Nat) (f : List Nat) (c : CList) (rm : Finset Nat) (c' : CList)
      (rm' : Finset Nat),
      (∀ x ∈ f, x ∈ rm) →
      rbsLoop V ncb fuel f c rm = some (c', rm') →
      (∀ p, p ∈ rm' ↔ p ∈ rm ∨ ReachFrom (killNb V ncb) (fun z => z ∈ f) rm p) ∧
      (∀ k, containsKey c' k = true ↔
        containsKey c k = true ∧ (k ∉ rm' ∨ k ∈ rm)) := by
  intro fuel
  induction fuel with
  | zero =>
    intro f c rm c' rm' hf hrun
    cases f with
    | nil =>
      simp only [rbsLoop, Option.some_inj, Prod.mk.injEq] at hrun
      obtain ⟨rfl, rfl⟩ := hrun
      refine ⟨fun p => ?_, fun k => ?_⟩
      · refine ⟨fun h => Or.inl h, ?_⟩
        rintro (h | h)
        · exact h
        · exact absurd h (ReachFrom_not_seed (fun z hz => by simp at hz) p)
      · by_cases hk : k ∈ rm <;> simp [hk]
    | cons a f' => simp [rbsLoop] at hrun
  | succ n ih =>
    intro f c rm c' rm' hf hrun
    cases f with
    | nil =>
      simp only [rbsLoop, Option.some_inj, Prod.mk.injEq] at hrun
      obtain ⟨rfl, rfl⟩ := hrun
      refine ⟨fun p => ?_, fun k => ?_⟩
      · refine ⟨fun h => Or.inl h, ?_⟩
        rintro (h | h)
        · exact h
        · exact absurd h (ReachFrom_not_seed (fun z hz => by simp at hz) p)
      · by_cases hk : k ∈ rm <;> simp [hk]
    | cons x st =>
      simp only [rbsLoop] at hrun
      set pairs :=
        (bitsAsc (V.GetInvStateEvents x &&& ncb)).flatMap (fun e => V.InvTrans x e)
        with hpairs
      obtain ⟨hrm₁, hf₁, hc₁⟩ := processPairs_spec pairs st c rm
      have hx : x ∈ rm := hf x (by simp)
      have hst : ∀ y ∈ st, y ∈ rm := fun y hy => hf y (by simp [hy])
      have hf₁sub : ∀ y ∈ (processPairs pairs st c rm).1,
          y ∈ (processPairs pairs st c rm).2.2 := by
        intro y hy
        rcases (hf₁ y).mp hy with hy' | hy'
        · exact (hrm₁ y).mpr (Or.inl (hst y hy'))
        · exact (hrm₁ y).mpr (Or.inr hy')
      have ihr := ih _ _ _ _ _ hf₁sub hrun
      have hround := reach_round (killNb V ncb) x st (processPairs pairs st c rm).1 rm
        (processPairs pairs st c rm).2.2 hx hst
        (fun z => (hrm₁ z).trans
          (or_congr Iff.rfl (and_congr (mem_nbList V ncb x z) Iff.rfl)))
        (fun z => (hf₁ z).trans
          (or_congr Iff.rfl (and_congr (mem_nbList V ncb x z) Iff.rfl)))
      have hrmsub : ∀ z, z ∈ rm → z ∈ rm' := by
        intro z hz
        exact (ihr.1 z).mpr (Or.inl ((hrm₁ z).mpr (Or.inl hz)))
      have hr2sub : ∀ z, z ∈ (processPairs pairs st c rm).2.2 → z ∈ rm' :=
        fun z hz => (ihr.1 z).mpr (Or.inl hz)
      refine ⟨fun p => (ihr.1 p).trans (hround p), fun k => ?_⟩
      rw [ihr.2 k, hc₁ k]
      constructor
      · rintro ⟨⟨hck, hnp⟩, hd⟩
        refine ⟨hck, ?_⟩
        rcases hd with hd | hd
        · exact Or.inl hd
        · rcases (hrm₁ k).mp hd with hk | hk
          · exact Or.inr hk
          · exact absurd hk hnp
      · rintro ⟨hck, hd⟩
        rcases hd with hd | hd
        · refine ⟨⟨hck, ?_⟩, Or.inl hd⟩
          intro hk
          exact hd (hr2sub k ((hrm₁ k).mpr (Or.inr hk)))
        · refine ⟨⟨hck, fun hk => hk.2 hd⟩, Or.inr ((hrm₁ k).mpr (Or.inl hd))⟩

lemma ReachFrom_mono {nb : Nat → Nat → Prop} {seeds seeds' : Nat → Prop}
    {avoid avoid' : Finset Nat} (hs : ∀ z, seeds z → seeds' z)
    (ha : avoid' ⊆ avoid) :
    ∀ z, ReachFrom nb seeds avoid z → ReachFrom nb seeds' avoid' z := by
  intro z h
  induction h with
  | seed hz => exact .seed (hs _ hz)
  | step _ hnb hna ih => exact .step ih hnb fun hm => hna (ha hm)

lemma ReachFrom_seed_or_avoid {nb : Nat → Nat → Prop} {seeds : Nat → Prop}
    {avoid : Finset Nat} :
    ∀ z, ReachFrom nb seeds avoid z → seeds z ∨ z ∉ avoid := by
  intro z h
  induction h with
  | seed hz => exact Or.inl hz
  | step _ _ hna _ => exact Or.inr hna

lemma ReachFrom_lt (V : SuperProxy) (ncb N NE : Nat)
    (hinv : ∀ x, x < N → ∀ e, e < NE → ∀ p ∈ V.InvTrans x e, p < N)
    (hinvse : ∀ x, x < N → V.GetInvStateEvents x < 2 ^ NE)
    {seeds : Nat → Prop} {avoid : Finset Nat}
    (hseeds : ∀ z, seeds z → z < N) :
    ∀ z, ReachFrom (killNb V ncb) seeds avoid z → z < N := by
  intro z h
  induction h with
  | seed hz => exact hseeds _ hz
  | @step y p _ hnb _ ih =>
    obtain ⟨e, he, hpe⟩ := hnb
    have heNE : e < NE := bitsAsc_mem_lt
      (Nat.lt_of_le_of_lt Nat.and_le_left (hinvse y ih)) ((bitsAsc_mem _ e).mpr he)
    exact hinv y ih e heNE p hpe

lemma processPairs_bound (N : Nat) :
    ∀ (pairs f : List Nat) (c : CList) (rm : Finset Nat),
      (∀ p ∈ pairs, p < N) → rm ⊆ Finset.range N →
      (processPairs pairs f c rm).2.2 ⊆ Finset.range N ∧
      (processPairs pairs f c rm).1.length +
          2 * (N - (processPairs pairs f c rm).2.2.card)
        ≤ f.length + 2 * (N - rm.card)
  | [], f, c, rm => fun _ hrm => by simp [processPairs, hrm]
  | s :: rest, f, c, rm => fun hp hrm => by
    by_cases hs : s ∈ rm
    · rw [processPairs, if_pos hs]
      exact processPairs_bound N rest f c rm (fun p hp' => hp p (by simp [hp'])) hrm
    · rw [processPairs, if_neg hs]
      have hsN : s < N := hp s (by simp)
      have hins : insert s rm ⊆ Finset.range N := by
        intro z hz
        rcases Finset.mem_insert.mp hz with rfl | hz
        · exact Finset.mem_range.mpr hsN
        · exact hrm hz
      have hcard : rm.card < N := by
        have hss : rm ⊂ Finset.range N :=
          (Finset.ssubset_iff_of_subset hrm).mpr ⟨s, Finset.mem_range.mpr hsN, hs⟩
        simpa using Finset.card_lt_card hss
      have hcard2 : (insert s rm).card = rm.card + 1 :=
        Finset.card_insert_of_not_mem hs
      have ih := processPairs_bound N rest (s :: f) (eraseKey s c) (insert s rm)
        (fun p hp' => hp p (by simp [hp'])) hins
      refine ⟨ih.1, ?_⟩
      refine le_trans ih.2 ?_
      simp only [List.length_cons, hcard2]
      omega

lemma rbsLoop_term (V : SuperProxy) (ncb N NE : Nat)
    (hinv : ∀ x, x < N → ∀ e, e < NE → ∀ p ∈ V.InvTrans x e, p < N)
    (hinvse : ∀ x, x < N → V.GetInvStateEvents x < 2 ^ NE) :
    ∀ (fuel : Nat) (f : List Nat) (c : CList) (rm : Finset Nat),
      (∀ x ∈ f, x ∈ rm) → rm ⊆ Finset.range N →
      f.length + 2 * (N - rm.card) < fuel →
      ∃ out, rbsLoop V ncb fuel f c rm = some out ∧
        rm ⊆ out.2 ∧ out.2 ⊆ Finset.range N := by
  intro fuel
  induction fuel with
  | zero =>
    intro f c rm _ _ h
    omega
  | succ n ih =>
    intro f c rm hf hrm hfuel
    cases f with
    | nil => exact ⟨(c, rm), by simp [rbsLoop], Finset.Subset.refl _, hrm⟩
    | cons x st =>
      have hxN : x < N := Finset.mem_range.mp (hrm (hf x (by simp)))
      set pairs :=
        (bitsAsc (V.GetInvStateEvents x &&& ncb)).flatMap (fun e => V.InvTrans x e)
        with hpairs
      have hpN : ∀ p ∈ pairs, p < N := by
        intro p hp
        obtain ⟨e, he, hpe⟩ := (mem_nbList V ncb x p).mp hp
        have heNE : e < NE := bitsAsc_mem_lt
          (Nat.lt_of_le_of_lt Nat.and_le_left (hinvse x hxN)) ((bitsAsc_mem _ e).mpr he)
        exact hinv x hxN e heNE p hpe
      obtain ⟨hsub, hmeas⟩ := processPairs_bound N pairs st c rm hpN hrm
      obtain ⟨hrm₁, hf₁, _⟩ := processPairs_spec pairs st c rm
      have hst : ∀ y ∈ st, y ∈ rm := fun y hy => hf y (by simp [hy])
      have hf₁sub : ∀ y ∈ (processPairs pairs st c rm).1,
          y ∈ (processPairs pairs st c rm).2.2 := by
        intro y hy
        rcases (hf₁ y).mp hy with hy' | hy'
        · exact (hrm₁ y).mpr (Or.inl (hst y hy'))
        · exact (hrm₁ y).mpr (Or.inr hy')
      have hrec := ih (processPairs pairs st c rm).1 (processPairs pairs st c rm).2.1
        (processPairs pairs st c rm).2.2 hf₁sub hsub (by
          simp only [List.length_cons] at hfuel
          omega)
      obtain ⟨out, hout, hsub1, hsub2⟩ := hrec
      refine ⟨out, by simp only [rbsLoop]; exact hout, ?_, hsub2⟩
      intro z hz
      exact hsub1 ((hrm₁ z).mpr (Or.inl hz))

lemma killreach_insert (V : SuperProxy) (ncb : Nat) (rm : Finset Nat) (q : Nat) :
    ∀ p, (p ∈ insert q rm ∨
        ReachFrom (killNb V ncb) (fun z => z ∈ [q]) (insert q rm) p)
      ↔ (p ∈ rm ∨ KillReaches V ncb rm q p) := by
  intro p
  constructor
  · rintro (hp | hp)
    · rcases Finset.mem_insert.mp hp with rfl | hp
      · exact Or.inr (.seed rfl)
      · exact Or.inl hp
    · exact Or.inr (ReachFrom_mono (fun z hz => by simpa using hz)
        (Finset.subset_insert q rm) p hp)
  · rintro (hp | hp)
    · exact Or.inl (Finset.mem_insert_of_mem hp)
    · induction hp with
      | seed hz =>
        subst hz
        exact Or.inl (Finset.mem_insert_self _ _)
      | @step y z hy hnb hna ih =>
        by_cases hzq : z = q
        · subst hzq
          exact Or.inl (Finset.mem_insert_self _ _)
        · right
          rcases ReachFrom_seed_or_avoid y hy with rfl | hyrm
          · exact .step (.seed (by simp)) hnb (by
              intro hm
              rcases Finset.mem_insert.mp hm with h1 | h1
              · exact hzq h1
              · exact hna h1)
          · rcases ih with hy1 | hy2
            · rcases Finset.mem_insert.mp hy1 with rfl | hy1
              · exact .step (.seed (by simp)) hnb (by
                  intro hm
                  rcases Finset.mem_insert.mp hm with h1 | h1
                  · exact hzq h1
                  · exact hna h1)
              · exact absurd hy1 hyrm
            · exact .step hy2 hnb (by
                intro hm
                rcases Finset.mem_insert.mp hm with h1 | h1
                · exact hzq h1
                · exact hna h1)

lemma lookupC_cons_self (q : Nat) (l : List (Nat × Nat)) (c : CList) :
    lookupC ((q, l) :: c) q = some l := by
  simp [lookupC]

lemma lookupC_cons_ne {q k : Nat} (h : k ≠ q) (l : List (Nat × Nat)) (c : CList) :
    lookupC ((q, l) :: c) k = lookupC c k := by
  simp [lookupC, List.find?_cons, Ne.symm h]

lemma survFold_snd (V : SuperProxy) (c : CList) (rmt : Finset Nat) (q : Nat) :
    ∀ (l f0 : List Nat) (a0 : List (Nat × Nat)),
      (l.foldl (survStep V c rmt q) (f0, a0)).2
        = a0 ++ l.map fun e => ((V.Trans q e).toNat, e)
  | [], f0, a0 => by simp
  | e :: l', f0, a0 => by
    rw [List.foldl_cons, survFold_snd V c rmt q l']
    simp [survStep]

lemma survFold_fst (V : SuperProxy) (c : CList) (rmt : Finset Nat) (q : Nat) :
    ∀ (l f0 : List Nat) (a0 : List (Nat × Nat)),
      (∀ x ∈ (l.foldl (survStep V c rmt q) (f0, a0)).1,
        x ∈ f0 ∨ ∃ e ∈ l, x = (V.Trans q e).toNat) ∧
      (l.foldl (survStep V c rmt q) (f0, a0)).1.length ≤ f0.length + l.length
  | [], f0, a0 => by simp
  | e :: l', f0, a0 => by
    rw [List.foldl_cons]
    have ih := survFold_fst V c rmt q l' (survStep V c rmt q (f0, a0) e).1
      (survStep V c rmt q (f0, a0) e).2
    have hcases : (survStep V c rmt q (f0, a0) e).1 = ((V.Trans q e).toNat) :: f0 ∨
        (survStep V c rmt q (f0, a0) e).1 = f0 := by
      simp only [survStep]
      by_cases hc : (V.Trans q e).toNat ∉ rmt ∧
          containsKey ((q, (f0, a0).2) :: c) ((V.Trans q e).toNat) = false
      · rw [if_pos hc]
        exact Or.inl rfl
      · rw [if_neg hc]
        exact Or.inr rfl
    constructor
    · intro x hx
      rcases ih.1 x hx with hx' | ⟨e', he', hxe⟩
      · rcases hcases with hc | hc
        · rw [hc] at hx'
          rcases List.mem_cons.mp hx' with rfl | hx''
          · exact Or.inr ⟨e, by simp⟩
          · exact Or.inl hx''
        · rw [hc] at hx'
          exact Or.inl hx'
      · exact Or.inr ⟨e', by simp [he'], hxe⟩
    · refine le_trans ih.2 ?_
      rcases hcases with hc | hc <;> rw [hc] <;> simp <;> omega

/-- Claim C1: in the synthesis DFS, a popped state `q` that is neither removed
nor already surviving is declared bad and killed exactly when
`enabled_u ≠ required_u` (`in_ncqx_and_q != in_ncqx` in the source), in which
case the kill propagates backwards along inverse transitions restricted to the
uncontrollable events of the composition, inserting exactly the reached
predecessors into the removed table and erasing them from the survivors;
otherwise `q` is inserted into the survivors with its outgoing transitions.
See `DfsBadStepSpec` and `DfsGoodStepSpec`. -/
theorem C1_dfs_step (V : SuperProxy) (aP : DESystemBase)
    (p_non_contr_bit non_contr_bit rbfuel N NE : Nat)
    (st : SynthState) (q : Nat) (rest : List Nat)
    (hf : st.f = q :: rest)
    (hq1 : q ∉ st.rmtable) (hq2 : containsKey st.c q = false)
    (hqN : q < N)
    (hrm : ∀ x ∈ st.rmtable, x < N)
    (hinv : ∀ x, x < N → ∀ e, e < NE → ∀ p ∈ V.InvTrans x e, p < N)
    (hinvse : ∀ x, x < N → V.GetInvStateEvents x < 2 ^ NE)
    (hfuel : 2 * N + 1 < rbfuel) :
    DfsBadStepSpec V aP p_non_contr_bit non_contr_bit rbfuel st q rest ∧
    DfsGoodStepSpec V aP p_non_contr_bit non_contr_bit rbfuel st q rest := by
  obtain ⟨c, rm, f⟩ := st
  simp only at hf hq1 hq2 hrm
  subst hf
  have hrmrange : rm ⊆ Finset.range N := fun x hx => Finset.mem_range.mpr (hrm x hx)
  constructor
  · intro hbad
    have hinsrange : insert q rm ⊆ Finset.range N := by
      intro z hz
      rcases Finset.mem_insert.mp hz with rfl | hz
      · exact Finset.mem_range.mpr hqN
      · exact hrmrange hz
    have hterm := rbsLoop_term V non_contr_bit N NE hinv hinvse rbfuel [q] c
      (insert q rm) (by simp) hinsrange (by
        have : N - (insert q rm).card ≤ N := Nat.sub_le _ _
        simp only [List.length_singleton]
        omega)
    obtain ⟨⟨c', rm'⟩, hout, _, _⟩ := hterm
    have hspec := rbsLoop_spec V non_contr_bit rbfuel [q] c (insert q rm) c' rm'
      (by simp) hout
    have hstep : synthIter V aP p_non_contr_bit non_contr_bit rbfuel
        ⟨c, rm, q :: rest⟩ = some ⟨c', rm', rest⟩ := by
      simp only [synthIter]
      rw [if_neg (by simp [hq1, hq2]), if_pos hbad]
      unfold RemoveBadStates
      rw [hout]
    have hrmiff : ∀ p, p ∈ rm' ↔ p ∈ rm ∨ KillReaches V non_contr_bit rm q p := by
      intro p
      exact (hspec.1 p).trans (killreach_insert V non_contr_bit rm q p)
    refine ⟨⟨c', rm', rest⟩, hstep, rfl, ?_, hrmiff, ?_⟩
    · exact (hrmiff q).mpr (Or.inr (.seed rfl))
    · intro k
      rw [hspec.2 k]
      constructor
      · rintro ⟨hck, hd⟩
        refine ⟨hck, fun hkill => ?_⟩
        have hkq : k ≠ q := by
          rintro rfl
          rw [hq2] at hck
          cases hck
        have hkrm' : k ∈ rm' := (hrmiff k).mpr (Or.inr hkill)
        rcases hd with hd | hd
        · exact hd hkrm'
        · rcases Finset.mem_insert.mp hd with rfl | hd
          · exact hkq rfl
          · rcases ReachFrom_seed_or_avoid k hkill with h1 | h1
            · exact hkq h1
            · exact h1 hd
      · rintro ⟨hck, hnk⟩
        refine ⟨hck, ?_⟩
        by_cases hk' : k ∈ rm'
        · rcases (hrmiff k).mp hk' with hd | hd
          · exact Or.inr (Finset.mem_insert_of_mem hd)
          · exact absurd hd hnk
        · exact Or.inl hk'
  · intro hgood
    have hstep : synthIter V aP p_non_contr_bit non_contr_bit rbfuel
        ⟨c, rm, q :: rest⟩
        = some ⟨(q, ((bitsAsc (V.GetStateEvents q)).foldl (survStep V c rm q)
            (rest, [])).2) :: c,
          rm, ((bitsAsc (V.GetStateEvents q)).foldl (survStep V c rm q)
            (rest, [])).1⟩ := by
      simp only [synthIter]
      rw [if_neg (by simp [hq1, hq2]), if_neg (by simp [hgood])]
    refine ⟨_, hstep, rfl, hq1, ?_, ?_⟩
    · rw [survFold_snd V c rm q]
      exact lookupC_cons_self q _ c
    · intro k hk
      exact lookupC_cons_ne hk _ c

/-- Witness for C1 at the concrete S3 product, state 0. -/
theorem C1_dfs_step_witness :
    ((⟨[], ∅, [0]⟩ : SynthState).f = 0 :: []) ∧
    (0 ∉ (⟨[], ∅, [0]⟩ : SynthState).rmtable) ∧
    (containsKey (⟨[], ∅, [0]⟩ : SynthState).c 0 = false) ∧
    (0 < 1) ∧
    (∀ x ∈ (⟨[], ∅, [0]⟩ : SynthState).rmtable, x < 1) ∧
    (∀ x, x < 1 → ∀ e, e < 4 →
      ∀ p ∈ (SuperProxy.mk2 s3plant s3spec).InvTrans x e, p < 1) ∧
    (∀ x, x < 1 → (SuperProxy.mk2 s3plant s3spec).GetInvStateEvents x < 2 ^ 4) ∧
    (2 * 1 + 1 < 4) ∧
    (DfsBadStepSpec (SuperProxy.mk2 s3plant s3spec) s3plant 4 4 4
        ⟨[], ∅, [0]⟩ 0 [] ∧
      DfsGoodStepSpec (SuperProxy.mk2 s3plant s3spec) s3plant 4 4 4
        ⟨[], ∅, [0]⟩ 0 []) :=
  ⟨by decide, by decide, by decide, by decide, by decide, by decide, by decide,
   by decide,
   C1_dfs_step (SuperProxy.mk2 s3plant s3spec) s3plant 4 4 4 1 4
     ⟨[], ∅, [0]⟩ 0 [] (by decide) (by decide) (by decide) (by decide) (by decide)
     (by decide) (by decide) (by decide)⟩

lemma mem_ckeys {c : CList} {k : Nat} : k ∈ ckeys c ↔ containsKey c k = true := by
  simp [ckeys, containsKey, List.any_eq_true, beq_iff_eq]

lemma ckeys_cons (q : Nat) (l : List (Nat × Nat)) (c : CList) :
    ckeys ((q, l) :: c) = insert q (ckeys c) := by
  simp [ckeys]

/-- Each DFS iteration only grows `rmtable ∪ keys c`: a state erased from the
survivors is simultaneously inserted into the removed table. -/
lemma synthIter_mono (V : SuperProxy) (aP : DESystemBase)
    (pncb ncb rbfuel : Nat) (st st' : SynthState)
    (h : synthIter V aP pncb ncb rbfuel st = some st') :
    ∀ x, x ∈ st.rmtable ∪ ckeys st.c → x ∈ st'.rmtable ∪ ckeys st'.c := by
  obtain ⟨c, rm, f⟩ := st
  cases f with
  | nil =>
    simp only [synthIter] at h
    obtain rfl := Option.some_inj.mp h
    exact fun x hx => hx
  | cons q rest =>
    simp only [synthIter] at h
    by_cases hskip : q ∈ rm ∨ containsKey c q = true
    · rw [if_pos hskip] at h
      obtain rfl := Option.some_inj.mp h
      exact fun x hx => hx
    · rw [if_neg hskip] at h
      by_cases hbad : (pncb &&& aP.GetStateEvents (q % V.n_states_sys0_)) &&&
          V.GetStateEvents q ≠ pncb &&& aP.GetStateEvents (q % V.n_states_sys0_)
      · rw [if_pos hbad] at h
        cases hrbs : RemoveBadStates V rbfuel c q ncb rm with
        | none =>
          rw [hrbs] at h
          cases h
        | some out =>
          obtain ⟨c', rm'⟩ := out
          rw [hrbs] at h
          obtain rfl := Option.some_inj.mp h
          unfold RemoveBadStates at hrbs
          have hspec := rbsLoop_spec V ncb rbfuel [q] c (insert q rm) c' rm'
            (by simp) hrbs
          intro x hx
          rcases Finset.mem_union.mp hx with hx | hx
          · exact Finset.mem_union_left _
              ((hspec.1 x).mpr (Or.inl (Finset.mem_insert_of_mem hx)))
          · by_cases hck' : containsKey c' x = true
            · exact Finset.mem_union_right _ (mem_ckeys.mpr hck')
            · have hcx : containsKey c x = true := mem_ckeys.mp hx
              have hd : x ∈ rm' := by
                by_contra hxr
                exact hck' ((hspec.2 x).mpr ⟨hcx, Or.inl hxr⟩)
              exact Finset.mem_union_left _ hd
      · rw [if_neg hbad] at h
        obtain rfl := Option.some_inj.mp h
        intro x hx
        rcases Finset.mem_union.mp hx with hx | hx
        · exact Finset.mem_union_left _ hx
        · refine Finset.mem_union_right _ ?_
          rw [ckeys_cons]
          exact Finset.mem_insert_of_mem hx

lemma containsKey_exists {c : CList} {k : Nat} (h : containsKey c k = true) :
    ∃ p ∈ c, p.1 = k := by
  simpa [containsKey, List.any_eq_true, beq_iff_eq] using h

lemma containsKey_of_mem {c : CList} {p : Nat × List (Nat × Nat)} (h : p ∈ c) :
    containsKey c p.1 = true := by
  simp only [containsKey, List.any_eq_true]
  exact ⟨p, h, by simp⟩

/-- One iteration of the DFS from a non-empty stack succeeds under
well-formedness, preserves the range invariant, and strictly decreases the
measure `|f| + (NE + 2) * (N - |rmtable ∪ keys c|)`. -/
lemma synthIter_term (V : SuperProxy) (aP : DESystemBase) (pncb ncb N NE : Nat)
    (hwf : SynthWF V N NE) (st : SynthState) (q : Nat) (rest : List Nat)
    (hf : st.f = q :: rest) (hinv : StInv N st) :
    ∃ st', synthIter V aP pncb ncb (2 * N + 2) st = some st' ∧ StInv N st' ∧
      st'.f.length + (NE + 2) * (N - (st'.rmtable ∪ ckeys st'.c).card)
        < st.f.length + (NE + 2) * (N - (st.rmtable ∪ ckeys st.c).card) := by
  obtain ⟨c, rm, f⟩ := st
  simp only at hf
  subst hf
  obtain ⟨hfN, hrmN, hcN⟩ := hinv
  simp only at hfN hrmN hcN
  have hqN : q < N := hfN q (by simp)
  have hUr : rm ∪ ckeys c ⊆ Finset.range N := by
    intro x hx
    rcases Finset.mem_union.mp hx with hx | hx
    · exact Finset.mem_range.mpr (hrmN x hx)
    · obtain ⟨p, hp, rfl⟩ := containsKey_exists (mem_ckeys.mp hx)
      exact Finset.mem_range.mpr (hcN p hp)
  by_cases hskip : q ∈ rm ∨ containsKey c q = true
  · refine ⟨⟨c, rm, rest⟩, ?_, ?_, ?_⟩
    · simp only [synthIter]
      rw [if_pos hskip]
    · exact ⟨fun x hx => hfN x (by simp [hx]), hrmN, hcN⟩
    · simp only [List.length_cons]
      omega
  · have hq1 : q ∉ rm := fun h => hskip (Or.inl h)
    have hq2 : containsKey c q = false := by
      cases hc2 : containsKey c q
      · rfl
      · exact absurd (Or.inr hc2) hskip
    have hqU : q ∉ rm ∪ ckeys c := by
      intro h
      rcases Finset.mem_union.mp h with h | h
      · exact hq1 h
      · rw [mem_ckeys, hq2] at h
        cases h
    have hcardlt : (rm ∪ ckeys c).card < N := by
      have hss : rm ∪ ckeys c ⊂ Finset.range N :=
        (Finset.ssubset_iff_of_subset hUr).mpr ⟨q, Finset.mem_range.mpr hqN, hqU⟩
      simpa using Finset.card_lt_card hss
    by_cases hbad : (pncb &&& aP.GetStateEvents (q % V.n_states_sys0_)) &&&
        V.GetStateEvents q ≠ pncb &&& aP.GetStateEvents (q % V.n_states_sys0_)
    · have hinsrange : insert q rm ⊆ Finset.range N := by
        intro z hz
        rcases Finset.mem_insert.mp hz with rfl | hz
        · exact Finset.mem_range.mpr hqN
        · exact Finset.mem_range.mpr (hrmN z hz)
      have hterm := rbsLoop_term V ncb N NE hwf.2.2.1 hwf.2.2.2 (2 * N + 2) [q] c
        (insert q rm) (by simp) hinsrange (by
          have := Nat.sub_le N (insert q rm).card
          simp only [List.length_singleton]
          omega)
      obtain ⟨⟨c', rm'⟩, hout, hsub1, hsub2⟩ := hterm
      have hspec := rbsLoop_spec V ncb (2 * N + 2) [q] c (insert q rm) c' rm'
        (by simp) hout
      have hstep : synthIter V aP pncb ncb (2 * N + 2) ⟨c, rm, q :: rest⟩
          = some ⟨c', rm', rest⟩ := by
        simp only [synthIter]
        rw [if_neg (by simp [hq1, hq2]), if_pos hbad]
        unfold RemoveBadStates
        rw [hout]
      have hrm'N : ∀ x ∈ rm', x < N := fun x hx => Finset.mem_range.mp (hsub2 hx)
      have hc'N : ∀ p ∈ c', p.1 < N := by
        intro p hp
        have h1 : containsKey c' p.1 = true := containsKey_of_mem hp
        have h2 : containsKey c p.1 = true := ((hspec.2 p.1).mp h1).1
        obtain ⟨p', hp', hkey⟩ := containsKey_exists h2
        rw [← hkey]
        exact hcN p' hp'
      have hmono := synthIter_mono V aP pncb ncb (2 * N + 2) ⟨c, rm, q :: rest⟩
        ⟨c', rm', rest⟩ hstep
      have hqin : q ∈ rm' ∪ ckeys c' := Finset.mem_union_left _
        ((hspec.1 q).mpr (Or.inl (Finset.mem_insert_self _ _)))
      have hss : (rm ∪ ckeys c) ⊂ (rm' ∪ ckeys c') :=
        (Finset.ssubset_iff_of_subset fun x hx => hmono x hx).mpr ⟨q, hqin, hqU⟩
      have hclt : (rm ∪ ckeys c).card < (rm' ∪ ckeys c').card :=
        Finset.card_lt_card hss
      have hU'r : rm' ∪ ckeys c' ⊆ Finset.range N := by
        intro x hx
        rcases Finset.mem_union.mp hx with hx | hx
        · exact hsub2 hx
        · obtain ⟨p, hp, rfl⟩ := containsKey_exists (mem_ckeys.mp hx)
          exact Finset.mem_range.mpr (hc'N p hp)
      have hcle : (rm' ∪ ckeys c').card ≤ N := by
        simpa using Finset.card_le_card hU'r
      refine ⟨⟨c', rm', rest⟩, hstep,
        ⟨fun x hx => hfN x (by simp [hx]), hrm'N, hc'N⟩, ?_⟩
      simp only [List.length_cons]
      have h1 : (N - (rm' ∪ ckeys c').card) + 1 ≤ N - (rm ∪ ckeys c).card := by
        omega
      have h2 : (NE + 2) * ((N - (rm' ∪ ckeys c').card) + 1)
          ≤ (NE + 2) * (N - (rm ∪ ckeys c).card) := Nat.mul_le_mul_left _ h1
      rw [Nat.mul_add, Nat.mul_one] at h2
      omega
    · have hgood : (pncb &&& aP.GetStateEvents (q % V.n_states_sys0_)) &&&
          V.GetStateEvents q = pncb &&& aP.GetStateEvents (q % V.n_states_sys0_) :=
        not_not.mp hbad
      have hstep : synthIter V aP pncb ncb (2 * N + 2) ⟨c, rm, q :: rest⟩
          = some ⟨(q, ((bitsAsc (V.GetStateEvents q)).foldl (survStep V c rm q)
              (rest, [])).2) :: c,
            rm, ((bitsAsc (V.GetStateEvents q)).foldl (survStep V c rm q)
              (rest, [])).1⟩ := by
        simp only [synthIter]
        rw [if_neg (by simp [hq1, hq2]), if_neg (by simp [hgood])]
      have hff := survFold_fst V c rm q (bitsAsc (V.GetStateEvents q)) rest []
      have hqe : V.GetStateEvents q < 2 ^ NE := hwf.1 q hqN
      have hf'N : ∀ x ∈ ((bitsAsc (V.GetStateEvents q)).foldl (survStep V c rm q)
          (rest, [])).1, x < N := by
        intro x hx
        rcases hff.1 x hx with hx' | ⟨e, he, rfl⟩
        · exact hfN x (by simp [hx'])
        · have heb : (V.GetStateEvents q).testBit e = true := (bitsAsc_mem _ e).mp he
          have heNE : e < NE := bitsAsc_mem_lt hqe he
          exact (hwf.2.1 q hqN e heNE heb).2
      have hlen : ((bitsAsc (V.GetStateEvents q)).foldl (survStep V c rm q)
          (rest, [])).1.length ≤ rest.length + NE := by
        have hb := bitsAsc_length_le hqe
        have := hff.2
        omega
      have hU' : rm ∪ ckeys ((q, ((bitsAsc (V.GetStateEvents q)).foldl
          (survStep V c rm q) (rest, [])).2) :: c) = insert q (rm ∪ ckeys c) := by
        rw [ckeys_cons]
        ext z
        simp only [Finset.mem_union, Finset.mem_insert]
        tauto
      have hcard' : (rm ∪ ckeys ((q, ((bitsAsc (V.GetStateEvents q)).foldl
          (survStep V c rm q) (rest, [])).2) :: c)).card
          = (rm ∪ ckeys c).card + 1 := by
        rw [hU']
        exact Finset.card_insert_of_not_mem hqU
      refine ⟨_, hstep, ⟨hf'N, hrmN, ?_⟩, ?_⟩
      · intro p hp
        rcases List.mem_cons.mp hp with rfl | hp
        · exact hqN
        · exact hcN p hp
      · simp only [List.length_cons, hcard']
        have heq : N - (rm ∪ ckeys c).card
            = (N - ((rm ∪ ckeys c).card + 1)) + 1 := by
          omega
        have h2 : (NE + 2) * (N - (rm ∪ ckeys c).card)
            = (NE + 2) * (N - ((rm ∪ ckeys c).card + 1)) + (NE + 2) := by
          rw [heq, Nat.mul_add, Nat.mul_one]
        omega

lemma synthLoop_term (V : SuperProxy) (aP : DESystemBase) (pncb ncb N NE : Nat)
    (hwf : SynthWF V N NE) :
    ∀ (fuel : Nat) (st : SynthState), StInv N st →
      st.f.length + (NE + 2) * (N - (st.rmtable ∪ ckeys st.c).card) < fuel →
      ∃ st', synthLoop V aP pncb ncb (2 * N + 2) fuel st = some st' ∧
        st'.f = [] := by
  intro fuel
  induction fuel with
  | zero =>
    intro st _ h
    omega
  | succ n ih =>
    intro st hinv hm
    cases hfst : st.f with
    | nil =>
      refine ⟨st, ?_, hfst⟩
      simp only [synthLoop, hfst]
    | cons q rest =>
      obtain ⟨st', hstep, hinv', hdec⟩ :=
        synthIter_term V aP pncb ncb N NE hwf st q rest hfst hinv
      obtain ⟨st'', hrun, hemp⟩ := ih st' hinv' (by omega)
      refine ⟨st'', ?_, hemp⟩
      simp only [synthLoop, hfst, hstep]
      exact hrun

/-- Claim C9: the synthesis main loop terminates for every input: the union of
the surviving-key set and the removed table grows monotonically across
iterations (a state erased from the survivors by kill propagation is
simultaneously inserted into the removed table), and from any well-formed
start state some finite fuel drains the DFS stack completely. -/
theorem C9_termination (V : SuperProxy) (aP : DESystemBase)
    (p_non_contr_bit non_contr_bit N NE : Nat) (hwf : SynthWF V N NE) :
    (∀ st st',
      synthIter V aP p_non_contr_bit non_contr_bit (2 * N + 2) st = some st' →
      ∀ x, x ∈ st.rmtable ∪ ckeys st.c → x ∈ st'.rmtable ∪ ckeys st'.c) ∧
    (∀ st, StInv N st → ∃ fuel st',
      synthLoop V aP p_non_contr_bit non_contr_bit (2 * N + 2) fuel st = some st' ∧
      st'.f = []) := by
  refine ⟨fun st st' h => synthIter_mono V aP _ _ _ st st' h, fun st hinv => ?_⟩
  obtain ⟨st', hrun, hemp⟩ := synthLoop_term V aP _ _ N NE hwf
    (st.f.length + (NE + 2) * (N - (st.rmtable ∪ ckeys st.c).card) + 1) st hinv
    (by omega)
  exact ⟨_, st', hrun, hemp⟩

/-- Witness for C9 at the concrete S3 product. -/
theorem C9_termination_witness :
    SynthWF (SuperProxy.mk2 s3plant s3spec) 1 4 ∧
    ((∀ st st',
        synthIter (SuperProxy.mk2 s3plant s3spec) s3plant 4 4 (2 * 1 + 2) st
          = some st' →
        ∀ x, x ∈ st.rmtable ∪ ckeys st.c → x ∈ st'.rmtable ∪ ckeys st'.c) ∧
      (∀ st, StInv 1 st → ∃ fuel st',
        synthLoop (SuperProxy.mk2 s3plant s3spec) s3plant 4 4 (2 * 1 + 2) fuel st
          = some st' ∧ st'.f = [])) :=
  ⟨by decide,
   C9_termination (SuperProxy.mk2 s3plant s3spec) s3plant 4 4 1 4 (by decide)⟩

/-!
## Claims about materialisation and the full pipeline
-/

/-- Claim C4: dangling edges are filtered at materialisation.  First half: in
the survivor branch `(q', e)` is appended to `c[q]` for every enabled event,
with no check whether `q'` is removed (`RecordAllSpec`).  Second half: the
materialiser emits a renumbered triplet for a recorded pair exactly when its
target is a surviving state, and every emitted triplet arises from such a pair
(`Stage2FilterSpec`). -/
theorem C4_dangling_edges (V : SuperProxy) (aP : DESystemBase)
    (pncb ncb rbfuel : Nat) (st : SynthState) (q : Nat) (rest : List Nat)
    (hf : st.f = q :: rest) (hq1 : q ∉ st.rmtable)
    (hq2 : containsKey st.c q = false)
    (hgood : (pncb &&& aP.GetStateEvents (q % V.n_states_sys0_)) &&&
        V.GetStateEvents q = pncb &&& aP.GetStateEvents (q % V.n_states_sys0_)) :
    RecordAllSpec V aP pncb ncb rbfuel st q ∧ Stage2FilterSpec := by
  constructor
  · obtain ⟨c, rm, f⟩ := st
    simp only at hf hq1 hq2
    subst hf
    refine ⟨⟨(q, ((bitsAsc (V.GetStateEvents q)).foldl (survStep V c rm q)
        (rest, [])).2) :: c, rm,
        ((bitsAsc (V.GetStateEvents q)).foldl (survStep V c rm q) (rest, [])).1⟩,
      ?_, ?_⟩
    · simp only [synthIter]
      rw [if_neg (by simp [hq1, hq2]), if_neg (by simp [hgood])]
    · intro e he
      simp only [lookupC_cons_self, Option.getD_some, survFold_snd V c rm q,
        List.nil_append]
      exact List.mem_map.mpr ⟨e, (bitsAsc_mem _ e).mpr he, rfl⟩
  · intro vs tt
    constructor
    · intro qq lst q' e r' htt hlst hidx
      simp only [stage2Triplets, List.mem_flatMap]
      refine ⟨(qq, lst), List.mem_reverse.mpr htt, ?_⟩
      simp only [List.mem_filterMap]
      refine ⟨(q', e), List.mem_reverse.mpr hlst, ?_⟩
      simp [hidx]
    · intro T hT
      simp only [stage2Triplets, List.mem_flatMap] at hT
      obtain ⟨qtr, hqtr, hT⟩ := hT
      simp only [List.mem_filterMap] at hT
      obtain ⟨pe, hpe, hg⟩ := hT
      cases hidx : idx vs pe.1 with
      | none =>
        rw [hidx] at hg
        cases hg
      | some r' =>
        rw [hidx] at hg
        refine ⟨qtr.1, qtr.2, pe.1, pe.2, r', ?_, ?_, hidx, ?_⟩
        · simpa using List.mem_reverse.mp hqtr
        · simpa using List.mem_reverse.mp hpe
        · exact (Option.some_inj.mp hg).symm

/-- Witness for C4 at the concrete S3 product, state 0. -/
theorem C4_dangling_edges_witness :
    ((⟨[], ∅, [0]⟩ : SynthState).f = 0 :: []) ∧
    (0 ∉ (⟨[], ∅, [0]⟩ : SynthState).rmtable) ∧
    (containsKey (⟨[], ∅, [0]⟩ : SynthState).c 0 = false) ∧
    ((4 &&& s3plant.GetStateEvents
        (0 % (SuperProxy.mk2 s3plant s3spec).n_states_sys0_)) &&&
        (SuperProxy.mk2 s3plant s3spec).GetStateEvents 0
      = 4 &&& s3plant.GetStateEvents
        (0 % (SuperProxy.mk2 s3plant s3spec).n_states_sys0_)) ∧
    (RecordAllSpec (SuperProxy.mk2 s3plant s3spec) s3plant 4 4 4
        ⟨[], ∅, [0]⟩ 0 ∧ Stage2FilterSpec) :=
  ⟨by decide, by decide, by decide, by decide,
   C4_dangling_edges (SuperProxy.mk2 s3plant s3spec) s3plant 4 4 4
     ⟨[], ∅, [0]⟩ 0 [] (by decide) (by decide) (by decide) (by decide)⟩

/-- Claim C2 (code bug): the materialised supervisor automaton does get
`n_states = |virtual_states_|`, but its initial state is left as the *virtual*
initial id instead of `rank[V.init]`: on a product with virtual initial id 2
whose only survivor is 2, materialisation yields 1 state with
`init_state_ = 2`, although the ascending dense renumbering maps 2 to 0 (so
the claimed `init = rank[V.init]` would be 0, and the produced initial state is
out of range for the 1-state automaton). -/
theorem C2_init_not_renumbered :
    c2fixture.toDESystem.states_number_ = 1 ∧
    c2fixture.virtual_states_.length = 1 ∧
    c2fixture.init_state_ = 2 ∧
    c2fixture.toDESystem.init_state_ = 2 ∧
    idx (sortAsc c2fixture.virtual_states_) c2fixture.init_state_ = some 0 ∧
    (2 : Nat) ≠ 0 := by
  refine ⟨rfl, rfl, rfl, rfl, rfl, by decide⟩

/-- Counterexample to claim C5 (scenario S3): with a one-state plant carrying a
`b0` self-loop and a one-state specification with empty alphabet, the DFS does
*not* kill the initial state — `b0` is private to the plant in the composition
and stays enabled, so state 0 survives with its `b0` self-loop, the removed
table stays empty, and the synthesised supervisor has 1 state, not 0. -/
theorem C5_empty_supervisor_counterexample :
    (synthLoop (SuperProxy.mk2 s3plant s3spec) s3plant 4 4 4 10 ⟨[], ∅, [0]⟩
      = some ⟨[(0, [(0, 2)])], ∅, []⟩) ∧
    (nonContrBits [2, 3] s3plant.events_ (SuperProxy.mk2 s3plant s3spec).events_
      = (4, 4)) ∧
    ((SupervisorSynthF 10 s3plant s3spec [2, 3]).map DESystemC.states_number_
      = some 1) ∧
    (1 : Nat) ≠ 0 := by
  refine ⟨by decide, by decide, by decide, by decide⟩

/-- The amended claim C5: for scenario S3 the initial state survives
immediately (`b0` is required by the plant and, being private to the plant,
also enabled in the composition), and the supervisor is the one-state
automaton with the `b0` self-loop, not the empty automaton. -/
theorem C5_one_state_supervisor :
    SupervisorSynthF 10 s3plant s3spec [2, 3]
      = some { states_number_ := 1, init_state_ := 0, marked_states_ := [0, 0],
               events_ := 4, triplets := [(0, 0, 4)] } := by
  decide

end Cldes
